import Mathlib

/-!
A cooperative user-level thread dispatcher (`p2/dispatcher.c`)

Shallow embedding of the dispatcher: the two globals `_currentThread` and
`_threads`, the part of the machine the context switch of `yield` touches
(stack pointer, the six callee-saved registers, byte-addressed memory), and the
functions `initThreads`, `_scheduleNextThread`, `yield` and `startThread`.

Conventions.
* Pointers and 64-bit registers are natural numbers; `0` is `NULL`.  Register
  arithmetic is taken modulo `2^64`.  `_currentThread` is a natural number; a
  value outside `0 .. 9` makes every access `_threads[_currentThread]` fail.
* `assert` failures, an out-of-range index into `_threads` and an exhausted
  iteration budget are results of type `Failure`.
* `malloc` is a parameter: the address it returns if it is called (`0` for a
  failed allocation).  The address of `_parkThread` is a parameter as well.
* The two `printf` calls of `yield` are left out.  The registers of a `World`
  at a call of `yield` are the registers as the `asm` block is entered.
* Executions are lists of `Action`s run by `exec`: calls of `startThread`, of
  `_scheduleNextThread` and of `yield`, and arbitrary computation of the
  running thread on registers and memory.
-/

namespace Dispatcher

/-- Source: `#define MAX_THREADS 10`. -/
abbrev MAX_THREADS : Nat := 10

/-- Source: `#define STACK_SIZE 4096`. -/
abbrev STACK_SIZE : Nat := 4096

/-- Number of values of a 64-bit register. -/
abbrev WORD : Nat := 2 ^ 64

/-- Source: `enum _ThreadState`. -/
inductive ThreadState where
  | STATE_UNUSED
  | STATE_READY
  | STATE_RUNNING
deriving DecidableEq, Repr

open ThreadState

/-- Source: `struct _Thread`. -/
structure Thread where
  state : ThreadState
  threadId : Int
  currentSP : Nat
  willReturnFromYield : Int
deriving DecidableEq, Repr

/-- The record `memset(.., 0, ..)` leaves in every slot. -/
def Thread.zero : Thread :=
  { state := STATE_UNUSED, threadId := 0, currentSP := 0, willReturnFromYield := 0 }

/-- Byte-addressed memory; only the low eight bits of a cell are ever read. -/
abbrev Memory : Type := Nat → Nat

/-- The registers `yield` saves and restores, and the stack pointer. -/
structure Cpu where
  rsp : Nat
  rbp : Nat
  rbx : Nat
  r12 : Nat
  r13 : Nat
  r14 : Nat
  r15 : Nat
deriving DecidableEq, Repr

/-- The state of the program: the globals `_currentThread` and `_threads`,
the registers of the processor and the memory holding the stacks. -/
structure World where
  _currentThread : Nat
  _threads : Fin MAX_THREADS → Thread
  cpu : Cpu
  mem : Memory

/-- Ways a call can abort. -/
inductive Failure where
  | assertion
  | outOfBounds
  | outOfFuel
deriving DecidableEq, Repr

/-- How control leaves the `asm` block of `yield`. -/
inductive Resume where
  | epilog
  | retq (target : Nat)
deriving DecidableEq, Repr

/-! ## Memory and stack primitives -/

/-- Store the low 64 bits of `v` little-endian at the eight bytes from `a`. -/
def storeQ (mem : Memory) (a v : Nat) : Memory :=
  fun b => if (b + WORD - a % WORD) % WORD < 8 ∧ b < WORD
    then v / 256 ^ ((b + WORD - a % WORD) % WORD) % 256 else mem b

/-- Byte `i` of the quadword at `a`. -/
def loadB (mem : Memory) (a i : Nat) : Nat := mem ((a + i) % WORD) % 256

/-- Load the quadword stored little-endian at the eight bytes from `a`. -/
def loadQ (mem : Memory) (a : Nat) : Nat :=
  loadB mem a 0 + loadB mem a 1 * 256 + loadB mem a 2 * 256 ^ 2 + loadB mem a 3 * 256 ^ 3
    + loadB mem a 4 * 256 ^ 4 + loadB mem a 5 * 256 ^ 5 + loadB mem a 6 * 256 ^ 6
    + loadB mem a 7 * 256 ^ 7

/-- Instruction `pushq`: decrement `rsp` by eight, then store. -/
def pushq (c : Cpu) (mem : Memory) (v : Nat) : Cpu × Memory :=
  let sp := (c.rsp + WORD - 8) % WORD
  ({ c with rsp := sp }, storeQ mem sp v)

/-- Instruction `popq`: the quadword at `rsp`, and `rsp` incremented by eight. -/
def popq (c : Cpu) (mem : Memory) : Nat × Cpu :=
  (loadQ mem c.rsp, { c with rsp := (c.rsp + 8) % WORD })

/-! ## The dispatcher -/

/-- Source: `initThreads()`. -/
def initThreads (w : World) : World :=
  let cleared : Fin MAX_THREADS → Thread := fun _ => Thread.zero
  let t0 := cleared 0
  { w with
    _currentThread := 0
    _threads := Function.update cleared 0
      { t0 with state := STATE_RUNNING, threadId := 0, willReturnFromYield := 0 } }

/-- The `do { .. } while (..)` loop of `_scheduleNextThread`, started with
`_currentThread = c`: the final value of `_currentThread` and the number of
iterations executed, or `none` when `fuel` iterations did not suffice. -/
def scanLoop (threads : Fin MAX_THREADS → Thread) : Nat → Nat → Option (Nat × Nat)
  | 0, _ => none
  | fuel + 1, c =>
    let c1 := (c + 1) % MAX_THREADS
    if (threads ⟨c1, Nat.mod_lt _ (by decide)⟩).state ≠ STATE_READY then
      (scanLoop threads fuel c1).map (fun r => (r.1, r.2 + 1))
    else some (c1, 1)

/-- Source: `_scheduleNextThread()` with an iteration budget for its loop; the result
also reports the number of loop iterations. -/
def scheduleNextThreadFuel (fuel : Nat) (w : World) : Except Failure (World × Nat) :=
  if h : w._currentThread < MAX_THREADS then
    let cur : Fin MAX_THREADS := ⟨w._currentThread, h⟩
    if (w._threads cur).state ≠ STATE_RUNNING then .error .assertion
    else
      let threads := Function.update w._threads cur { w._threads cur with state := STATE_READY }
      match scanLoop threads fuel w._currentThread with
      | none => .error .outOfFuel
      | some (c, n) =>
        if hc : c < MAX_THREADS then
          .ok ({ w with
                 _currentThread := c
                 _threads := Function.update threads ⟨c, hc⟩
                   { threads ⟨c, hc⟩ with state := STATE_RUNNING } }, n)
        else .error .outOfBounds
  else .error .outOfBounds

/-- Source: `_scheduleNextThread()`.  The loop gets `MAX_THREADS` iterations.  It
never needs more: once the assertion has passed, the current slot itself is
ready and is reached in the `MAX_THREADS`-th iteration at the latest
(`exists_next_ready`, `scheduleNextThreadFuel_eq`). -/
def _scheduleNextThread (w : World) : Except Failure World :=
  (scheduleNextThreadFuel MAX_THREADS w).map Prod.fst

/-- The `asm` block of `yield`: `prevSp` is written to
`_threads[prevThread].currentSP`; `newSp` and `flag` are the input operands. -/
def contextSwitch (c : Cpu) (mem : Memory) (newSp : Nat) (flag : Int) :
    Nat × Cpu × Memory × Resume :=
  let prevSp := (c.rsp + WORD - 6 * 8) % WORD
  let (c, mem) := pushq c mem c.rbp
  let (c, mem) := pushq c mem c.rbx
  let (c, mem) := pushq c mem c.r12
  let (c, mem) := pushq c mem c.r13
  let (c, mem) := pushq c mem c.r14
  let (c, mem) := pushq c mem c.r15
  let c := { c with rsp := newSp }
  let (v, c) := popq c mem
  let c := { c with r15 := v }
  let (v, c) := popq c mem
  let c := { c with r14 := v }
  let (v, c) := popq c mem
  let c := { c with r13 := v }
  let (v, c) := popq c mem
  let c := { c with r12 := v }
  let (v, c) := popq c mem
  let c := { c with rbx := v }
  let (v, c) := popq c mem
  let c := { c with rbp := v }
  if flag ≠ 0 then (prevSp, c, mem, .epilog)
  else
    let (target, c) := popq c mem
    (prevSp, c, mem, .retq target)

/-- Source: `yield()`. -/
def yield (w : World) : Except Failure (World × Resume) :=
  let prevThread := w._currentThread
  match _scheduleNextThread w with
  | .error e => .error e
  | .ok w =>
    if hp : prevThread < MAX_THREADS then
      if hc : w._currentThread < MAX_THREADS then
        let prev : Fin MAX_THREADS := ⟨prevThread, hp⟩
        let cur : Fin MAX_THREADS := ⟨w._currentThread, hc⟩
        if (w._threads prev).state ≠ STATE_READY then .error .assertion
        else if (w._threads cur).state ≠ STATE_RUNNING then .error .assertion
        else if (w._threads cur).currentSP = 0 then .error .assertion
        else
          let threads := Function.update w._threads prev
            { w._threads prev with willReturnFromYield := 1 }
          let (prevSp, c, mem, r) :=
            contextSwitch w.cpu w.mem (threads cur).currentSP (threads cur).willReturnFromYield
          .ok ({ w with
                 _threads := Function.update threads prev { threads prev with currentSP := prevSp }
                 cpu := c
                 mem := mem }, r)
      else .error .outOfBounds
    else .error .outOfBounds

/-- The `for` loop of `startThread`, at index `i` with `n` iterations left. -/
def startThreadLoop (parkThread func stackBase : Nat) (w : World) : Nat → Nat → Int × World
  | 0, _ => (-1, w)
  | n + 1, i =>
    if h : i < MAX_THREADS then
      if (w._threads ⟨i, h⟩).state = STATE_UNUSED then
        if stackBase = 0 then (-1, w)
        else
          let stackTop := stackBase + STACK_SIZE
          let mem := storeQ w.mem (stackTop - 1 * 8) parkThread
          let mem := storeQ mem (stackTop - 2 * 8) func
          let stackTop := stackTop - 8 * 8
          let t := w._threads ⟨i, h⟩
          ((i : Int),
           { w with
             mem := mem
             _threads := Function.update w._threads ⟨i, h⟩
               { t with currentSP := stackTop, state := STATE_READY, willReturnFromYield := 0 } })
      else startThreadLoop parkThread func stackBase w n (i + 1)
    else (-1, w)

/-- Source: `startThread(func)`; `stackBase` is what `malloc(STACK_SIZE)` returns if it
is called and `parkThread` is `&_parkThread`.  Arithmetic on the pointer into the
block is exact (a block of `STACK_SIZE` bytes lies inside the address space);
`threadId` is not assigned, as in the source. -/
def startThread (parkThread func stackBase : Nat) (w : World) : Int × World :=
  if func = 0 then (-1, w)
  else startThreadLoop parkThread func stackBase w MAX_THREADS 0

/-! ## Callers: sequences of calls -/

/-- A sequence of `startThread` calls, each given as the pair of `func` and the
address `malloc` returns for it; the result lists the returned values. -/
def startThreadSeq (parkThread : Nat) : List (Nat × Nat) → World → List Int
  | [], _ => []
  | c :: rest, w =>
    let r := startThread parkThread c.1 c.2 w
    r.1 :: startThreadSeq parkThread rest r.2

/-- What the running thread can do to the world. -/
inductive Action where
  /-- Call `startThread(func)`; `malloc` answers `stackBase`. -/
  | start (parkThread func stackBase : Nat)
  /-- Run `_scheduleNextThread()` on its own. -/
  | schedule
  /-- Call `yield()`. -/
  | yield
  /-- Compute: registers and memory change at will, the two globals do not. -/
  | run (cpu : Cpu) (mem : Memory)

/-- One action; `none` when the call aborts the process. -/
def step : Action → World → Option World
  | .start p f b, w => some (startThread p f b w).2
  | .schedule, w => (_scheduleNextThread w).toOption
  | .yield, w => (yield w).toOption.map Prod.fst
  | .run c m, w => some { w with cpu := c, mem := m }

/-- A sequence of actions, left to right. -/
def exec : List Action → World → Option World
  | [], w => some w
  | a :: rest, w => (step a w).bind (exec rest)

/-- Predicate `P a v` holds for every action `a` of the sequence and the world `v` it is
applied to. -/
def AlwaysAt (P : Action → World → Prop) : List Action → World → Prop
  | [], _ => True
  | a :: rest, w =>
    P a w ∧ (match step a w with
      | some w1 => AlwaysAt P rest w1
      | none => True)

/-- Runs `_scheduleNextThread()` `n` times in a row: the thread ids selected,
in order, and the final world; `none` when a run aborts. -/
def scheduleSteps : Nat → World → Option (List Nat × World)
  | 0, w => some ([], w)
  | n + 1, w =>
    match _scheduleNextThread w with
    | .error _ => none
    | .ok w1 => (scheduleSteps n w1).map (fun r => (w1._currentThread :: r.1, r.2))

/-- Number of slots that are `STATE_READY` or `STATE_RUNNING`. -/
def liveCount (w : World) : Nat :=
  (Finset.univ.filter (fun j : Fin MAX_THREADS => (w._threads j).state ≠ STATE_UNUSED)).card

/-- The slot an index denotes after `%= MAX_THREADS`. -/
def slot (n : Nat) : Fin MAX_THREADS := ⟨n % MAX_THREADS, Nat.mod_lt _ (by decide)⟩

/-- The world `startThread` leaves when it takes slot `i`. -/
def startedAt (parkThread func stackBase : Nat) (w : World) (i : Fin MAX_THREADS) : World :=
  { w with
    mem := storeQ (storeQ w.mem (stackBase + STACK_SIZE - 1 * 8) parkThread)
      (stackBase + STACK_SIZE - 2 * 8) func
    _threads := Function.update w._threads i
      { w._threads i with
        currentSP := stackBase + STACK_SIZE - 8 * 8
        state := STATE_READY
        willReturnFromYield := 0 } }

/-- Slots `0 .. n-1` are in use and slots `n ..` are `STATE_UNUSED`. -/
def Occupied (n : Nat) (w : World) : Prop :=
  ∀ j : Fin MAX_THREADS, (w._threads j).state = STATE_UNUSED ↔ n ≤ j.val

/-- The scheduling invariant: `n` threads in slots `0 .. n-1`, the current one
`STATE_RUNNING` and no other. -/
structure Inv (n : Nat) (w : World) : Prop where
  pos : 1 ≤ n
  le : n ≤ MAX_THREADS
  occ : Occupied n w
  cur : w._currentThread < n
  running : ∀ j : Fin MAX_THREADS, (w._threads j).state = STATE_RUNNING ↔ j.val = w._currentThread

/-- A world to evaluate the functions on: slot 7 current, junk everywhere. -/
def junkWorld : World :=
  { _currentThread := 7
    _threads := fun _ => { state := STATE_READY, threadId := 3, currentSP := 5, willReturnFromYield := 1 }
    cpu := { rsp := 65536, rbp := 1, rbx := 42, r12 := 43, r13 := 44, r14 := 45, r15 := 46 }
    mem := fun _ => 0 }

/-- The records after `_scheduleNextThread` has marked the current one ready. -/
def markReady (w : World) (cur : Fin MAX_THREADS) : Fin MAX_THREADS → Thread :=
  Function.update w._threads cur { w._threads cur with state := STATE_READY }

/-- The world `_scheduleNextThread` leaves when it leaves `cur` for `sel`. -/
def scheduled (w : World) (cur sel : Fin MAX_THREADS) : World :=
  { w with
    _currentThread := sel.val
    _threads := Function.update (markReady w cur) sel
      { markReady w cur sel with state := STATE_RUNNING } }

/-- The world and the exit `yield` produces once its assertions have passed:
`ws` is the world `_scheduleNextThread` left, `prev` the outgoing and `cur` the
incoming thread. -/
def switched (ws : World) (prev cur : Fin MAX_THREADS) : World × Resume :=
  let threads := Function.update ws._threads prev
    { ws._threads prev with willReturnFromYield := 1 }
  let r := contextSwitch ws.cpu ws.mem (threads cur).currentSP (threads cur).willReturnFromYield
  ({ ws with
     _threads := Function.update threads prev { threads prev with currentSP := r.1 }
     cpu := r.2.1
     mem := r.2.2.1 }, r.2.2.2)

/-- A run to evaluate on: the host creates two threads, yields to the first,
which computes and yields to the second, and the scheduler runs once more. -/
def sampleActs : List Action :=
  [.start 64 128 8192, .start 64 256 16384, .yield,
   .run { rsp := 12000, rbp := 2, rbx := 3, r12 := 4, r13 := 5, r14 := 6, r15 := 7 } (fun _ => 9),
   .yield, .schedule]

/-- The world `sampleActs` ends in. -/
def sampleWorld : World := (exec sampleActs (initThreads junkWorld)).getD junkWorld

/-- Every `STATE_READY` record has a non-null saved stack pointer. -/
def ReadyHaveStacks (w : World) : Prop :=
  ∀ j : Fin MAX_THREADS, (w._threads j).state = STATE_READY → (w._threads j).currentSP ≠ 0

/-- A step of a run made of `startThread` calls, `yield` calls and computation
only, in which every `yield` records a non-null stack pointer (`rsp - 48`) for
the thread it suspends. -/
def yieldRun : Action → World → Prop
  | .start _ _ _, _ => True
  | .schedule, _ => False
  | .yield, w => (w.cpu.rsp + WORD - 6 * 8) % WORD ≠ 0
  | .run _ _, _ => True

/-- A run of calls and computation only: the host creates two threads and
yields to the first, which computes and yields to the second. -/
def yieldActs : List Action :=
  [.start 64 128 8192, .start 64 256 16384, .yield,
   .run { rsp := 12000, rbp := 2, rbx := 3, r12 := 4, r13 := 5, r14 := 6, r15 := 7 } (fun _ => 9),
   .yield]

/-- The world `yieldActs` ends in. -/
def yieldWorld : World := (exec yieldActs (initThreads junkWorld)).getD junkWorld

instance yieldRunDecidable (a : Action) (w : World) : Decidable (yieldRun a w) := by
  cases a <;> unfold yieldRun <;> infer_instance

instance alwaysAtDecidable (P : Action → World → Prop) [∀ a w, Decidable (P a w)] :
    ∀ (acts : List Action) (w : World), Decidable (AlwaysAt P acts w)
  | [], _ => isTrue trivial
  | a :: rest, w =>
    match hs : step a w with
    | some w1 =>
      match alwaysAtDecidable P rest w1 with
      | isTrue h1 =>
        if h0 : P a w then isTrue ⟨h0, by rw [hs]; exact h1⟩
        else isFalse (fun h => h0 h.1)
      | isFalse h1 => isFalse (fun h => h1 (by have h2 := h.2; rw [hs] at h2; exact h2))
    | none =>
      if h0 : P a w then isTrue ⟨h0, by rw [hs]; trivial⟩
      else isFalse (fun h => h0 h.1)

/-- All seven registers hold 64-bit values. -/
def Cpu.Valid (c : Cpu) : Prop :=
  c.rsp < WORD ∧ c.rbp < WORD ∧ c.rbx < WORD ∧ c.r12 < WORD ∧ c.r13 < WORD ∧ c.r14 < WORD ∧
    c.r15 < WORD

/-- Memories `m` and `m1` hold the same `len` bytes from address `sp` on. -/
def SameBytes (m m1 : Memory) (sp len : Nat) : Prop :=
  ∀ i, i < len → loadB m sp i = loadB m1 sp i

/-- The memory after the six `pushq` of the context switch. -/
def pushAll (c : Cpu) (mem : Memory) : Memory :=
  storeQ (storeQ (storeQ (storeQ (storeQ (storeQ mem
    ((c.rsp + WORD - 8) % WORD) c.rbp)
    ((c.rsp + WORD - 16) % WORD) c.rbx)
    ((c.rsp + WORD - 24) % WORD) c.r12)
    ((c.rsp + WORD - 32) % WORD) c.r13)
    ((c.rsp + WORD - 40) % WORD) c.r14)
    ((c.rsp + WORD - 48) % WORD) c.r15

/-- The registers after the six `popq` of the context switch from `sp`. -/
def popAll (mem : Memory) (sp : Nat) : Cpu :=
  { rsp := (sp + 48) % WORD
    r15 := loadQ mem sp
    r14 := loadQ mem ((sp + 8) % WORD)
    r13 := loadQ mem ((sp + 16) % WORD)
    r12 := loadQ mem ((sp + 24) % WORD)
    rbx := loadQ mem ((sp + 32) % WORD)
    rbp := loadQ mem ((sp + 40) % WORD) }

/-- Thread `self` is not the one an action is applied by. -/
def Suspended (self : Nat) : Action → World → Prop :=
  fun _ v => v._currentThread ≠ self

instance suspendedDecidable (self : Nat) (a : Action) (w : World) :
    Decidable (Suspended self a w) := by
  unfold Suspended; infer_instance

/-- The record of a suspended thread: in use, with saved stack pointer `sp`
and `willReturnFromYield` set. -/
def Parked (self : Fin MAX_THREADS) (sp : Nat) (w : World) : Prop :=
  (w._threads self).state ≠ STATE_UNUSED ∧ (w._threads self).currentSP = sp ∧
    (w._threads self).willReturnFromYield = 1

/-- The scenario of `test_registers.c`, up to the `yield` of `t1`: the host
creates `t1` and yields to it; `t1` loads 42 .. 46 into `rbx`, `r12` .. `r15`. -/
def regsWorld : World :=
  (exec
    [.start 64 128 8192, .yield,
     .run { rsp := 12200, rbp := 12264, rbx := 42, r12 := 43, r13 := 44, r14 := 45, r15 := 46 }
       (fun _ => 0)]
    (initThreads junkWorld)).getD junkWorld

/-- The world after `t1` has yielded in `regsWorld`: the host runs again. -/
def regsWorld1 : World := ((yield regsWorld).toOption.map Prod.fst).getD junkWorld

/-- The host overwrites every register and all of memory except the 48 bytes
from the saved stack pointer of `t1`. -/
def regsActs : List Action :=
  [.run { rsp := 65000, rbp := 0, rbx := 1, r12 := 2, r13 := 3, r14 := 4, r15 := 5 }
     (fun a => if 12152 ≤ a ∧ a < 12200 then regsWorld1.mem a else 255)]

/-- The world in which the host yields back to `t1`. -/
def regsWorld2 : World := (exec regsActs regsWorld1).getD junkWorld

/-- The world in which `t1` runs again. -/
def regsWorld3 : World := ((yield regsWorld2).toOption.map Prod.fst).getD junkWorld

instance validDecidable (c : Cpu) : Decidable c.Valid := by
  unfold Cpu.Valid; infer_instance

instance sameBytesDecidable (m m1 : Memory) (sp len : Nat) : Decidable (SameBytes m m1 sp len) := by
  unfold SameBytes; infer_instance

/-- The world after `initThreads` and one `startThread`: the host runs, slot 1
is ready. -/
def sampleStart : World := (startThread 64 128 8192 (initThreads junkWorld)).2

/-- The record of a thread that is not running: in use, with saved stack
pointer `sp` and `willReturnFromYield = flag`. -/
def Kept (self : Fin MAX_THREADS) (sp : Nat) (flag : Int) (w : World) : Prop :=
  (w._threads self).state ≠ STATE_UNUSED ∧ (w._threads self).currentSP = sp ∧
    (w._threads self).willReturnFromYield = flag

/-- The host computes after creating the thread of `sampleStart`, leaving the
memory alone. -/
def entryActs : List Action :=
  [.run { rsp := 60000, rbp := 60064, rbx := 1, r12 := 2, r13 := 3, r14 := 4, r15 := 5 }
     sampleStart.mem]

/-- The world in which the host yields for the first time. -/
def entryWorld : World := (exec entryActs sampleStart).getD junkWorld

/-- The world in which the new thread is entered. -/
def entryWorld1 : World := ((yield entryWorld).toOption.map Prod.fst).getD junkWorld

/-- A step of a run in which `_scheduleNextThread` is only run by `yield`. -/
def callsOnly : Action → World → Prop
  | .schedule, _ => False
  | _, _ => True

instance callsOnlyDecidable (a : Action) (w : World) : Decidable (callsOnly a w) := by
  cases a <;> unfold callsOnly <;> infer_instance

/-- The switch an action makes from world `w` to world `w1`: for a `yield`, the
pair of the outgoing and the incoming thread. -/
def switchOf : Action → World → World → List (Nat × Nat)
  | .yield, w, w1 => [(w._currentThread, w1._currentThread)]
  | _, _, _ => []

/-- The switches of a run, oldest first: one pair of outgoing and incoming
thread for every `yield` that completed. -/
def switches : List Action → World → List (Nat × Nat)
  | [], _ => []
  | a :: rest, w =>
    match step a w with
    | none => []
    | some w1 => switchOf a w w1 ++ switches rest w1

/-- The flags `willReturnFromYield` against the switches `H` made so far: a
thread that was switched away from is in use and has the flag set; a thread in
use that never was has it clear; a thread that was switched to is in use and
either still runs or has the flag set. -/
structure FlagInv (H : List (Nat × Nat)) (w : World) : Prop where
  out : ∀ j : Fin MAX_THREADS, j.val ∈ H.map Prod.fst →
    (w._threads j).state ≠ STATE_UNUSED ∧ (w._threads j).willReturnFromYield = 1
  fresh : ∀ j : Fin MAX_THREADS, (w._threads j).state ≠ STATE_UNUSED →
    j.val ∉ H.map Prod.fst → (w._threads j).willReturnFromYield = 0
  inc : ∀ j : Fin MAX_THREADS, j.val ∈ H.map Prod.snd →
    (w._threads j).state ≠ STATE_UNUSED ∧
      (j.val = w._currentThread ∨ (w._threads j).willReturnFromYield = 1)

/-- The host creates two threads and yields to the first. -/
def flagActs : List Action := [.start 64 128 8192, .start 64 256 16384, .yield]

/-- The world `flagActs` ends in: thread 1 runs, thread 2 has not run yet. -/
def flagWorld : World := (exec flagActs (initThreads junkWorld)).getD junkWorld

/-- The world after `_scheduleNextThread` has run in `sampleStart`. -/
def sampleScheduled : World := (_scheduleNextThread sampleStart).toOption.getD junkWorld

/-- Two threads whose blocks are adjacent: the block of thread 1 is at 16384,
that of thread 2 right below it at 12288. -/
def clobberCreated : World :=
  (startThread 64 256 12288 (startThread 64 128 16384 (initThreads junkWorld)).2).2

/-- The host has yielded: thread 1 runs, thread 2 has not run yet. -/
def clobberEntered : World := ((yield clobberCreated).toOption.map Prod.fst).getD junkWorld

/-- The host yields to thread 1, whose stack then grows below its own block
into the top of the block of thread 2 and overwrites the quadword at 16368,
where `startThread` had stored `func` of thread 2. -/
def clobberActs : List Action :=
  [.yield,
   .run { rsp := 16000, rbp := 16064, rbx := 1, r12 := 2, r13 := 3, r14 := 4, r15 := 5 }
     (storeQ clobberEntered.mem 16368 999)]

/-- The world in which thread 1 yields. -/
def clobberWorld : World := (exec clobberActs clobberCreated).getD junkWorld

/-- The world in which thread 2 is entered. -/
def clobberWorld1 : World := ((yield clobberWorld).toOption.map Prod.fst).getD junkWorld

/-! ## Theorems -/

/-! ### The degenerate scan: the host alone is found again in the tenth iteration -/

theorem scan_alone :
    (scheduleNextThreadFuel 10 (initThreads junkWorld)).toOption.map Prod.snd = some 10 ∧
    (scheduleNextThreadFuel 9 (initThreads junkWorld)).toOption.map Prod.snd = none := by
  decide


/-! ### `startThread` -/

theorem startThreadLoop_full (p f b : Nat) (w : World) (n i : Nat)
    (h : ∀ j : Fin MAX_THREADS, i ≤ j.val → (w._threads j).state ≠ STATE_UNUSED) :
    startThreadLoop p f b w n i = (-1, w) := by
  induction n generalizing i with
  | zero => rfl
  | succ n ih =>
    unfold startThreadLoop
    by_cases hi : i < MAX_THREADS
    · rw [dif_pos hi, if_neg (h ⟨i, hi⟩ le_rfl)]
      exact ih (i + 1) (fun j hj => h j (by omega))
    · rw [dif_neg hi]

theorem startThreadLoop_found (p f b : Nat) (hb : b ≠ 0) (w : World) (k : Fin MAX_THREADS)
    (hk : (w._threads k).state = STATE_UNUSED) (n i : Nat) (hik : i ≤ k.val) (hn : k.val < i + n)
    (h : ∀ j : Fin MAX_THREADS, i ≤ j.val → j.val < k.val → (w._threads j).state ≠ STATE_UNUSED) :
    startThreadLoop p f b w n i = ((k.val : Int), startedAt p f b w k) := by
  induction n generalizing i with
  | zero => omega
  | succ n ih =>
    unfold startThreadLoop
    have hi : i < MAX_THREADS := lt_of_le_of_lt hik k.isLt
    rw [dif_pos hi]
    by_cases hik2 : i = k.val
    · have hfin : (⟨i, hi⟩ : Fin MAX_THREADS) = k := Fin.ext hik2
      rw [hfin, if_pos hk, if_neg hb, hik2]
      rfl
    · rw [if_neg (h ⟨i, hi⟩ le_rfl (by simp; omega))]
      exact ih (i + 1) (by omega) (by omega) (fun j hj hjk => h j (by omega) hjk)

/-! ### The scan of `_scheduleNextThread` -/

theorem slot_val (n : Nat) : (slot n).val = n % MAX_THREADS := rfl

theorem slot_congr {a b : Nat} (h : a % MAX_THREADS = b % MAX_THREADS) : slot a = slot b :=
  Fin.ext h

theorem mod_step (c e : Nat) :
    ((c + 1) % MAX_THREADS + e) % MAX_THREADS = (c + (e + 1)) % MAX_THREADS := by
  unfold MAX_THREADS; omega

theorem scanLoop_spec (threads : Fin MAX_THREADS → Thread) (d : Nat) (hd : 1 ≤ d) :
    ∀ (c fuel : Nat), d ≤ fuel →
      (threads (slot (c + d))).state = STATE_READY →
      (∀ e, 1 ≤ e → e < d → (threads (slot (c + e))).state ≠ STATE_READY) →
      scanLoop threads fuel c = some ((c + d) % MAX_THREADS, d) := by
  induction d, hd using Nat.le_induction with
  | base =>
    intro c fuel hf hr _
    obtain ⟨fuel, rfl⟩ : ∃ k, fuel = k + 1 := ⟨fuel - 1, by omega⟩
    unfold scanLoop
    have hr' : (threads ⟨(c + 1) % MAX_THREADS, Nat.mod_lt _ (by decide)⟩).state = STATE_READY := hr
    simp only [hr', ne_eq, not_true_eq_false, if_false]
  | succ d hd ih =>
    intro c fuel hf hr hn
    obtain ⟨fuel, rfl⟩ : ∃ k, fuel = k + 1 := ⟨fuel - 1, by omega⟩
    unfold scanLoop
    have h1 : (threads ⟨(c + 1) % MAX_THREADS, Nat.mod_lt _ (by decide)⟩).state ≠ STATE_READY :=
      hn 1 le_rfl (by omega)
    simp only [h1, ne_eq, not_false_eq_true, if_true]
    have hrec := ih ((c + 1) % MAX_THREADS) fuel (by omega)
      (by rw [slot_congr (mod_step c d)]; exact hr)
      (fun e he1 hed => by
        rw [slot_congr (mod_step c e)]
        exact hn (e + 1) (by omega) (by omega))
    rw [hrec]
    simp only [Option.map_some', Option.some.injEq, Prod.mk.injEq, and_true]
    exact mod_step c d

/-! ### `startThread` and `initThreads`: results and occupied slots -/

theorem startThread_null (p b : Nat) (w : World) : startThread p 0 b w = (-1, w) := by
  simp [startThread]

theorem startThread_full (p f b : Nat) (w : World)
    (h : ∀ j : Fin MAX_THREADS, (w._threads j).state ≠ STATE_UNUSED) :
    startThread p f b w = (-1, w) := by
  unfold startThread
  split
  · rfl
  · exact startThreadLoop_full p f b w _ 0 (fun j _ => h j)

theorem startThread_lowest (p f b : Nat) (hf : f ≠ 0) (hb : b ≠ 0) (w : World)
    (k : Fin MAX_THREADS) (hk : (w._threads k).state = STATE_UNUSED)
    (h : ∀ j : Fin MAX_THREADS, j.val < k.val → (w._threads j).state ≠ STATE_UNUSED) :
    startThread p f b w = ((k.val : Int), startedAt p f b w k) := by
  unfold startThread
  rw [if_neg hf]
  exact startThreadLoop_found p f b hb w k hk _ 0 (Nat.zero_le _) (by have := k.isLt; omega)
    (fun j _ hj => h j hj)

theorem startThread_occupied (p f b : Nat) (hf : f ≠ 0) (hb : b ≠ 0) (w : World) (n : Nat)
    (hn : n < MAX_THREADS) (hocc : Occupied n w) :
    startThread p f b w = ((n : Int), startedAt p f b w ⟨n, hn⟩) :=
  startThread_lowest p f b hf hb w ⟨n, hn⟩ ((hocc ⟨n, hn⟩).2 le_rfl)
    (fun j hj hu => by have := (hocc j).1 hu; simp at hj; omega)

theorem startThread_occupied_full (p f b : Nat) (w : World) (n : Nat)
    (hn : MAX_THREADS ≤ n) (hocc : Occupied n w) : startThread p f b w = (-1, w) :=
  startThread_full p f b w (fun j hu => by have := (hocc j).1 hu; have := j.isLt; omega)

theorem startedAt_occupied (p f b : Nat) (w : World) (n : Nat) (hn : n < MAX_THREADS)
    (hocc : Occupied n w) : Occupied (n + 1) (startedAt p f b w ⟨n, hn⟩) := by
  intro j
  by_cases hj : j = ⟨n, hn⟩
  · subst hj
    simp [startedAt]
  · have hne : j.val ≠ n := fun h => hj (Fin.ext h)
    simp only [startedAt, Function.update_noteq hj]
    rw [hocc j]
    omega

theorem initThreads_threads_zero (w : World) :
    (initThreads w)._threads 0 =
      { state := STATE_RUNNING, threadId := 0, currentSP := 0, willReturnFromYield := 0 } := by
  simp [initThreads, Thread.zero]

theorem initThreads_threads_succ (w : World) (i : Fin MAX_THREADS) (hi : i ≠ 0) :
    (initThreads w)._threads i = Thread.zero := by
  simp [initThreads, Function.update_noteq hi]

theorem initThreads_occupied (w : World) : Occupied 1 (initThreads w) := by
  intro j
  by_cases hj : j = 0
  · subst hj
    rw [initThreads_threads_zero]
    simp
  · rw [initThreads_threads_succ w j hj]
    have : j.val ≠ 0 := fun h => hj (Fin.ext h)
    simp [Thread.zero]
    omega

theorem startThreadSeq_occupied (p : Nat) (calls : List (Nat × Nat))
    (hcalls : ∀ c ∈ calls, c.1 ≠ 0 ∧ c.2 ≠ 0) :
    ∀ (n : Nat) (w : World), Occupied n w →
      startThreadSeq p calls w =
        (List.range calls.length).map
          (fun k => if n + k < MAX_THREADS then ((n + k : Nat) : Int) else -1) := by
  induction calls with
  | nil => intro n w _; rfl
  | cons c rest ih =>
    intro n w hocc
    have hc := hcalls c (List.mem_cons_self _ _)
    have hrest : ∀ c ∈ rest, c.1 ≠ 0 ∧ c.2 ≠ 0 := fun c hc => hcalls c (List.mem_cons_of_mem _ hc)
    rw [List.length_cons, List.range_succ_eq_map, List.map_cons, List.map_map]
    unfold startThreadSeq
    by_cases hn : n < MAX_THREADS
    · rw [startThread_occupied p c.1 c.2 hc.1 hc.2 w n hn hocc]
      simp only
      rw [ih hrest (n + 1) _ (startedAt_occupied p c.1 c.2 w n hn hocc)]
      simp only [Nat.add_zero, hn, if_true, List.cons.injEq, true_and]
      apply List.map_congr_left
      intro k _
      simp only [Function.comp, Nat.succ_eq_add_one]
      rw [show n + 1 + k = n + (k + 1) by omega]
    · rw [startThread_occupied_full p c.1 c.2 w n (by omega) hocc]
      simp only
      rw [ih hrest n w hocc]
      simp only [Nat.add_zero, hn, if_false, List.cons.injEq, true_and]
      apply List.map_congr_left
      intro k _
      have h1 : ¬ n + k < MAX_THREADS := by omega
      have h2 : ¬ n + (k + 1) < MAX_THREADS := by omega
      simp only [Function.comp, Nat.succ_eq_add_one, h1, h2, if_false]

/-- C8: whatever the registry held before, after `initThreads` slot 0 is
`STATE_RUNNING` with id 0 and a cleared `willReturnFromYield`, every slot
`1 .. 9` is `STATE_UNUSED` with a null `currentSP`, and `_currentThread` is 0. -/
theorem initThreads_spec (w : World) (i : Fin MAX_THREADS) (hi : i ≠ 0) :
    ((initThreads w)._threads 0).state = STATE_RUNNING ∧
    ((initThreads w)._threads 0).threadId = 0 ∧
    ((initThreads w)._threads 0).willReturnFromYield = 0 ∧
    ((initThreads w)._threads i).state = STATE_UNUSED ∧
    ((initThreads w)._threads i).currentSP = 0 ∧
    (initThreads w)._currentThread = 0 := by
  rw [initThreads_threads_zero, initThreads_threads_succ w i hi]
  exact ⟨rfl, rfl, rfl, rfl, rfl, rfl⟩

theorem initThreads_spec_witness :
    ((initThreads junkWorld)._threads 0).state = STATE_RUNNING ∧
    ((initThreads junkWorld)._threads 0).threadId = 0 ∧
    ((initThreads junkWorld)._threads 0).willReturnFromYield = 0 ∧
    ((initThreads junkWorld)._threads 9).state = STATE_UNUSED ∧
    ((initThreads junkWorld)._threads 9).currentSP = 0 ∧
    (initThreads junkWorld)._currentThread = 0 :=
  initThreads_spec junkWorld 9 (by decide)

/-- C1: from the state `initThreads` produces, in any sequence of
`startThread` calls with non-null `func` and successful `malloc`, the `k`-th
call returns `k` for `k = 1 .. 9` and every call from the tenth on returns
`-1`. -/
theorem startThread_ids (p : Nat) (w : World) (calls : List (Nat × Nat))
    (hcalls : ∀ c ∈ calls, c.1 ≠ 0 ∧ c.2 ≠ 0) :
    startThreadSeq p calls (initThreads w) =
      (List.range calls.length).map
        (fun k => if k + 1 < MAX_THREADS then ((k + 1 : Nat) : Int) else -1) := by
  rw [startThreadSeq_occupied p calls hcalls 1 _ (initThreads_occupied w)]
  apply List.map_congr_left
  intro k _
  rw [Nat.add_comm 1 k]

theorem startThread_ids_witness :
    startThreadSeq 64 (List.replicate 12 (128, 8192)) (initThreads junkWorld) =
      [1, 2, 3, 4, 5, 6, 7, 8, 9, -1, -1, -1] :=
  startThread_ids 64 junkWorld (List.replicate 12 (128, 8192)) (by decide)

/-! ### `_scheduleNextThread`: the result in closed form -/

theorem slot_of_lt {c : Nat} (hc : c < MAX_THREADS) : slot c = ⟨c, hc⟩ :=
  Fin.ext (Nat.mod_eq_of_lt hc)

theorem slot_add_max (c : Nat) : slot (c + MAX_THREADS) = slot c :=
  Fin.ext (by simp [slot])

theorem scanLoop_short (threads : Fin MAX_THREADS → Thread) :
    ∀ (fuel c : Nat),
      (∀ e, 1 ≤ e → e ≤ fuel → (threads (slot (c + e))).state ≠ STATE_READY) →
      scanLoop threads fuel c = none := by
  intro fuel
  induction fuel with
  | zero => intro c _; rfl
  | succ fuel ih =>
    intro c hn
    unfold scanLoop
    have h1 : (threads ⟨(c + 1) % MAX_THREADS, Nat.mod_lt _ (by decide)⟩).state ≠ STATE_READY :=
      hn 1 le_rfl (by omega)
    simp only [h1, ne_eq, not_false_eq_true, if_true]
    rw [ih ((c + 1) % MAX_THREADS) (fun e he1 hef => by
      rw [slot_congr (mod_step c e)]
      exact hn (e + 1) (by omega) (by omega))]
    rfl

theorem scheduleNextThreadFuel_eq (w : World) (hc : w._currentThread < MAX_THREADS)
    (hrun : (w._threads ⟨w._currentThread, hc⟩).state = STATE_RUNNING)
    (d : Nat) (hd : 1 ≤ d) (fuel : Nat) (hf : d ≤ fuel)
    (hready : (markReady w ⟨w._currentThread, hc⟩ (slot (w._currentThread + d))).state
      = STATE_READY)
    (hnot : ∀ e, 1 ≤ e → e < d →
      (markReady w ⟨w._currentThread, hc⟩ (slot (w._currentThread + e))).state ≠ STATE_READY) :
    scheduleNextThreadFuel fuel w
      = .ok (scheduled w ⟨w._currentThread, hc⟩ (slot (w._currentThread + d)), d) := by
  unfold scheduleNextThreadFuel
  rw [dif_pos hc]
  simp only [hrun, ne_eq, not_true_eq_false, if_false]
  have hs := scanLoop_spec (markReady w ⟨w._currentThread, hc⟩) d hd w._currentThread fuel hf
    hready hnot
  unfold markReady at hs
  rw [hs]
  simp only
  rw [dif_pos (Nat.mod_lt _ (by decide))]
  rfl

theorem scheduleNextThreadFuel_short (w : World) (hc : w._currentThread < MAX_THREADS)
    (hrun : (w._threads ⟨w._currentThread, hc⟩).state = STATE_RUNNING)
    (fuel : Nat)
    (hnot : ∀ e, 1 ≤ e → e ≤ fuel →
      (markReady w ⟨w._currentThread, hc⟩ (slot (w._currentThread + e))).state ≠ STATE_READY) :
    scheduleNextThreadFuel fuel w = .error .outOfFuel := by
  unfold scheduleNextThreadFuel
  rw [dif_pos hc]
  simp only [hrun, ne_eq, not_true_eq_false, if_false]
  have hs := scanLoop_short (markReady w ⟨w._currentThread, hc⟩) fuel w._currentThread hnot
  unfold markReady at hs
  rw [hs]

theorem markReady_cur (w : World) (cur : Fin MAX_THREADS) :
    (markReady w cur cur).state = STATE_READY := by
  simp [markReady]

/-- The first ready slot after `c`, as a distance `d` in `1 .. MAX_THREADS`. -/
theorem exists_next_ready (threads : Fin MAX_THREADS → Thread) (c : Nat)
    (h : (threads (slot c)).state = STATE_READY) :
    ∃ d, 1 ≤ d ∧ d ≤ MAX_THREADS ∧ (threads (slot (c + d))).state = STATE_READY ∧
      ∀ e, 1 ≤ e → e < d → (threads (slot (c + e))).state ≠ STATE_READY := by
  have hex : ∃ d, 1 ≤ d ∧ (threads (slot (c + d))).state = STATE_READY :=
    ⟨MAX_THREADS, by decide, by rw [slot_add_max]; exact h⟩
  refine ⟨Nat.find hex, (Nat.find_spec hex).1, ?_, (Nat.find_spec hex).2, ?_⟩
  · exact Nat.find_min' hex ⟨by decide, by rw [slot_add_max]; exact h⟩
  · intro e he1 hlt hr
    exact Nat.find_min hex hlt ⟨he1, hr⟩

/-- C2: when `startThread` fails because `func` is null or because no slot is
`STATE_UNUSED`, it returns `-1` and the world it leaves is the world it was
called in: every record and `_currentThread` are as before. -/
theorem startThread_failure_unchanged (p f b : Nat) (w : World)
    (h : f = 0 ∨ ∀ j : Fin MAX_THREADS, (w._threads j).state ≠ STATE_UNUSED) :
    startThread p f b w = (-1, w) := by
  rcases h with h | h
  · subst h
    exact startThread_null p b w
  · exact startThread_full p f b w h

theorem startThread_failure_unchanged_witness :
    startThread 64 128 8192 junkWorld = (-1, junkWorld) ∧
    startThread 64 0 8192 (initThreads junkWorld) = (-1, initThreads junkWorld) :=
  ⟨startThread_failure_unchanged 64 128 8192 junkWorld (Or.inr (by decide)),
   startThread_failure_unchanged 64 0 8192 (initThreads junkWorld) (Or.inl rfl)⟩

/-- C3, as stated, fails: `startThread(NULL)` right after `initThreads` and
`startThread(f)` with `f = 128` in a registry without a `STATE_UNUSED` slot
return the same value, `-1`. -/
theorem startThread_errors_distinct_counterexample :
    (∀ j : Fin MAX_THREADS, (junkWorld._threads j).state ≠ STATE_UNUSED) ∧
    (startThread 64 0 8192 (initThreads junkWorld)).1 = -1 ∧
    (startThread 64 128 8192 junkWorld).1 = -1 ∧
    ¬ (startThread 64 0 8192 (initThreads junkWorld)).1 ≠ (startThread 64 128 8192 junkWorld).1 := by
  refine ⟨by decide, ?_, ?_, ?_⟩
  · rw [startThread_null]
  · rw [startThread_full _ _ _ _ (by decide)]
  · rw [startThread_null, startThread_full _ _ _ _ (by decide)]
    simp

/-- C3, amended: both caller errors are reported by the one failure value:
`startThread(NULL)` in any state `s` and `startThread(f)` in any state `t`
without a `STATE_UNUSED` slot both return `-1`. -/
theorem startThread_errors_same_value (p f b b1 : Nat) (s t : World)
    (hfull : ∀ j : Fin MAX_THREADS, (t._threads j).state ≠ STATE_UNUSED) :
    (startThread p 0 b s).1 = -1 ∧ (startThread p f b1 t).1 = -1 ∧
    (startThread p 0 b s).1 = (startThread p f b1 t).1 := by
  rw [startThread_null, startThread_full p f b1 t hfull]
  exact ⟨rfl, rfl, rfl⟩

theorem startThread_errors_same_value_witness :
    (startThread 64 0 8192 (initThreads junkWorld)).1 = -1 ∧
    (startThread 64 128 4096 junkWorld).1 = -1 ∧
    (startThread 64 0 8192 (initThreads junkWorld)).1 = (startThread 64 128 4096 junkWorld).1 :=
  startThread_errors_same_value 64 128 8192 4096 (initThreads junkWorld) junkWorld (by decide)

/-- C10: if `_currentThread` is in `0 .. 9` and names a `STATE_RUNNING`
record, the loop of `_scheduleNextThread` stops after a number `n` of
iterations with `1 ≤ n ≤ 10`, whatever the other nine slots hold: every budget
of at least `n` iterations gives the same successful result, and no smaller
budget suffices. -/
theorem scheduleNextThread_terminates (w : World) (hc : w._currentThread < MAX_THREADS)
    (hrun : (w._threads ⟨w._currentThread, hc⟩).state = STATE_RUNNING) :
    ∃ (w1 : World) (n : Nat), 1 ≤ n ∧ n ≤ MAX_THREADS ∧
      (∀ fuel, n ≤ fuel → scheduleNextThreadFuel fuel w = .ok (w1, n)) ∧
      (∀ fuel, fuel < n → scheduleNextThreadFuel fuel w = .error .outOfFuel) ∧
      _scheduleNextThread w = .ok w1 := by
  obtain ⟨d, hd1, hd10, hready, hnot⟩ :=
    exists_next_ready (markReady w ⟨w._currentThread, hc⟩) w._currentThread
      (by rw [slot_of_lt hc]; exact markReady_cur _ _)
  refine ⟨_, d, hd1, hd10,
    fun fuel hf => scheduleNextThreadFuel_eq w hc hrun d hd1 fuel hf hready hnot,
    fun fuel hf => scheduleNextThreadFuel_short w hc hrun fuel
      (fun e he1 hef => hnot e he1 (by omega)), ?_⟩
  unfold _scheduleNextThread
  rw [scheduleNextThreadFuel_eq w hc hrun d hd1 _ hd10 hready hnot]
  rfl

theorem scheduleNextThread_terminates_witness :
    ∃ (w1 : World) (n : Nat), 1 ≤ n ∧ n ≤ MAX_THREADS ∧
      (∀ fuel, n ≤ fuel → scheduleNextThreadFuel fuel (initThreads junkWorld) = .ok (w1, n)) ∧
      (∀ fuel, fuel < n →
        scheduleNextThreadFuel fuel (initThreads junkWorld) = .error .outOfFuel) ∧
      _scheduleNextThread (initThreads junkWorld) = .ok w1 :=
  scheduleNextThread_terminates (initThreads junkWorld) (by decide) (by decide)

theorem markReady_of_ne (w : World) (cur j : Fin MAX_THREADS) (h : j ≠ cur) :
    markReady w cur j = w._threads j := by
  simp [markReady, Function.update_noteq h]

theorem scheduled_threads_sel (w : World) (cur sel : Fin MAX_THREADS) :
    (scheduled w cur sel)._threads sel = { markReady w cur sel with state := STATE_RUNNING } := by
  simp [scheduled]

theorem scheduled_threads_of_ne (w : World) (cur sel j : Fin MAX_THREADS) (h : j ≠ sel) :
    (scheduled w cur sel)._threads j = markReady w cur j := by
  simp [scheduled, Function.update_noteq h]

theorem scheduled_only_state (w : World) (cur sel j : Fin MAX_THREADS) :
    (scheduled w cur sel)._threads j
      = { w._threads j with state := ((scheduled w cur sel)._threads j).state } := by
  by_cases hs : j = sel
  · subst hs
    rw [scheduled_threads_sel]
    by_cases hcur : j = cur
    · subst hcur; simp [markReady]
    · rw [markReady_of_ne w cur j hcur]
  · rw [scheduled_threads_of_ne w cur sel j hs]
    by_cases hcur : j = cur
    · subst hcur; simp [markReady]
    · rw [markReady_of_ne w cur j hcur]

theorem slot_eq_of_dist (c : Nat) (hc : c < MAX_THREADS) (j : Fin MAX_THREADS) :
    j = slot (c + (j.val + MAX_THREADS - c) % MAX_THREADS) := by
  apply Fin.ext
  have := j.isLt
  simp only [slot]
  unfold MAX_THREADS at *
  omega

/-- C9: when the current record `c` is `STATE_RUNNING`, one run of
`_scheduleNextThread` succeeds and makes `(c + d) mod 10` current, where `d` is
the least number in `1 .. 10` whose slot `(c + d) mod 10` is `STATE_READY`
once `c` has been marked ready.  The selected slot becomes `STATE_RUNNING`;
`c` becomes `STATE_READY` unless it is the selected slot, which is the case
exactly when no other slot is ready; all other records, all fields but
`state`, the registers and the memory are unchanged. -/
theorem scheduleNextThread_successor (w : World) (hc : w._currentThread < MAX_THREADS)
    (hrun : (w._threads ⟨w._currentThread, hc⟩).state = STATE_RUNNING) :
    ∃ (d : Nat) (w1 : World), 1 ≤ d ∧ d ≤ MAX_THREADS ∧
      (markReady w ⟨w._currentThread, hc⟩ (slot (w._currentThread + d))).state = STATE_READY ∧
      (∀ e, 1 ≤ e → e < d →
        (markReady w ⟨w._currentThread, hc⟩ (slot (w._currentThread + e))).state
          ≠ STATE_READY) ∧
      _scheduleNextThread w = .ok w1 ∧
      w1._currentThread = (w._currentThread + d) % MAX_THREADS ∧
      (w1._threads (slot (w._currentThread + d))).state = STATE_RUNNING ∧
      (slot (w._currentThread + d) ≠ ⟨w._currentThread, hc⟩ →
        (w1._threads ⟨w._currentThread, hc⟩).state = STATE_READY) ∧
      (slot (w._currentThread + d) = ⟨w._currentThread, hc⟩ ↔
        ∀ j : Fin MAX_THREADS, j ≠ ⟨w._currentThread, hc⟩ →
          (w._threads j).state ≠ STATE_READY) ∧
      (∀ j : Fin MAX_THREADS, j ≠ ⟨w._currentThread, hc⟩ → j ≠ slot (w._currentThread + d) →
        w1._threads j = w._threads j) ∧
      (∀ j : Fin MAX_THREADS,
        w1._threads j = { w._threads j with state := (w1._threads j).state }) ∧
      w1.cpu = w.cpu ∧ w1.mem = w.mem := by
  obtain ⟨d, hd1, hd10, hready, hnot⟩ :=
    exists_next_ready (markReady w ⟨w._currentThread, hc⟩) w._currentThread
      (by rw [slot_of_lt hc]; exact markReady_cur _ _)
  have hs : _scheduleNextThread w
      = .ok (scheduled w ⟨w._currentThread, hc⟩ (slot (w._currentThread + d))) := by
    unfold _scheduleNextThread
    rw [scheduleNextThreadFuel_eq w hc hrun d hd1 _ hd10 hready hnot]
    rfl
  refine ⟨d, _, hd1, hd10, hready, hnot, hs, rfl, ?_, ?_, ?_, ?_, ?_, rfl, rfl⟩
  · rw [scheduled_threads_sel]
  · intro hne
    rw [scheduled_threads_of_ne _ _ _ _ (Ne.symm hne)]
    exact markReady_cur _ _
  · constructor
    · intro hsel j hj hr
      have hd : d = MAX_THREADS := by
        have := congrArg Fin.val hsel
        simp only [slot] at this
        unfold MAX_THREADS at *
        omega
      have hjd := slot_eq_of_dist w._currentThread hc j
      have hjne : j.val ≠ w._currentThread := fun h => hj (Fin.ext h)
      have hlt := j.isLt
      refine hnot ((j.val + MAX_THREADS - w._currentThread) % MAX_THREADS) ?_ ?_ ?_
      · unfold MAX_THREADS at *; omega
      · unfold MAX_THREADS at *; omega
      · rw [← hjd, markReady_of_ne w _ j hj]
        exact hr
    · intro hnone
      by_contra hne
      rw [markReady_of_ne w _ _ hne] at hready
      exact hnone _ hne hready
  · intro j hj hjs
    rw [scheduled_threads_of_ne _ _ _ _ hjs, markReady_of_ne _ _ _ hj]
  · intro j
    exact scheduled_only_state _ _ _ _

/-- The host and one created thread: the host is current, the scheduler moves
on to slot 1 (`d = 1`), which becomes `STATE_RUNNING` while the host becomes
`STATE_READY`. -/
theorem scheduleNextThread_successor_witness :
    (sampleStart._currentThread = 0 ∧
      (sampleStart._threads 0).state = STATE_RUNNING ∧
      (sampleStart._threads 1).state = STATE_READY ∧
      _scheduleNextThread sampleStart = .ok sampleScheduled ∧
      sampleScheduled._currentThread = 1 ∧
      (sampleScheduled._threads 1).state = STATE_RUNNING ∧
      (sampleScheduled._threads 0).state = STATE_READY) ∧
    ∃ (d : Nat) (w1 : World), 1 ≤ d ∧ d ≤ MAX_THREADS ∧
      (markReady sampleStart 0 (slot (0 + d))).state = STATE_READY ∧
      (∀ e, 1 ≤ e → e < d →
        (markReady sampleStart 0 (slot (0 + e))).state ≠ STATE_READY) ∧
      _scheduleNextThread sampleStart = .ok w1 ∧
      w1._currentThread = (0 + d) % MAX_THREADS ∧
      (w1._threads (slot (0 + d))).state = STATE_RUNNING ∧
      (slot (0 + d) ≠ 0 → (w1._threads 0).state = STATE_READY) ∧
      (slot (0 + d) = 0 ↔
        ∀ j : Fin MAX_THREADS, j ≠ 0 → (sampleStart._threads j).state ≠ STATE_READY) ∧
      (∀ j : Fin MAX_THREADS, j ≠ 0 → j ≠ slot (0 + d) →
        w1._threads j = sampleStart._threads j) ∧
      (∀ j : Fin MAX_THREADS,
        w1._threads j = { sampleStart._threads j with state := (w1._threads j).state }) ∧
      w1.cpu = sampleStart.cpu ∧ w1.mem = sampleStart.mem :=
  ⟨⟨by decide, by decide, by decide, rfl, by decide, by decide, by decide⟩,
   scheduleNextThread_successor sampleStart (by decide) (by decide)⟩

/-! ### `yield`: when it succeeds and what it leaves -/

theorem yield_eq (w ws : World) (hs : _scheduleNextThread w = .ok ws)
    (hp : w._currentThread < MAX_THREADS) (hc : ws._currentThread < MAX_THREADS)
    (h1 : (ws._threads ⟨w._currentThread, hp⟩).state = STATE_READY)
    (h2 : (ws._threads ⟨ws._currentThread, hc⟩).state = STATE_RUNNING)
    (h3 : (ws._threads ⟨ws._currentThread, hc⟩).currentSP ≠ 0) :
    yield w = .ok (switched ws ⟨w._currentThread, hp⟩ ⟨ws._currentThread, hc⟩) := by
  unfold yield
  rw [hs]
  simp only []
  rw [dif_pos hp, dif_pos hc, if_neg (fun h => h h1), if_neg (fun h => h h2), if_neg h3]
  rfl

theorem yield_ok (w w1 : World) (r : Resume) (h : yield w = .ok (w1, r)) :
    ∃ (ws : World) (hp : w._currentThread < MAX_THREADS) (hc : ws._currentThread < MAX_THREADS),
      _scheduleNextThread w = .ok ws ∧
      (ws._threads ⟨w._currentThread, hp⟩).state = STATE_READY ∧
      (ws._threads ⟨ws._currentThread, hc⟩).state = STATE_RUNNING ∧
      (ws._threads ⟨ws._currentThread, hc⟩).currentSP ≠ 0 ∧
      (w1, r) = switched ws ⟨w._currentThread, hp⟩ ⟨ws._currentThread, hc⟩ := by
  unfold yield at h
  cases hs : _scheduleNextThread w with
  | error e => rw [hs] at h; simp at h
  | ok ws =>
    rw [hs] at h
    simp only at h
    by_cases hp : w._currentThread < MAX_THREADS
    · by_cases hc : ws._currentThread < MAX_THREADS
      · rw [dif_pos hp, dif_pos hc] at h
        by_cases h1 : (ws._threads ⟨w._currentThread, hp⟩).state = STATE_READY
        · by_cases h2 : (ws._threads ⟨ws._currentThread, hc⟩).state = STATE_RUNNING
          · by_cases h3 : (ws._threads ⟨ws._currentThread, hc⟩).currentSP = 0
            · simp [h1, h2, h3] at h
            · refine ⟨ws, hp, hc, rfl, h1, h2, h3, ?_⟩
              rw [if_neg (fun h => h h1), if_neg (fun h => h h2), if_neg h3] at h
              injection h with h
              rw [← h]
              rfl
          · simp [h1, h2] at h
        · simp [h1] at h
      · rw [dif_pos hp, dif_neg hc] at h; simp at h
    · rw [dif_neg hp] at h; simp at h

theorem switched_current (ws : World) (prev cur : Fin MAX_THREADS) :
    (switched ws prev cur).1._currentThread = ws._currentThread := rfl

theorem switched_state (ws : World) (prev cur j : Fin MAX_THREADS) :
    ((switched ws prev cur).1._threads j).state = (ws._threads j).state := by
  by_cases hj : j = prev
  · subst hj; simp [switched]
  · simp [switched, Function.update_noteq hj]

theorem switched_of_ne (ws : World) (prev cur j : Fin MAX_THREADS) (hj : j ≠ prev) :
    (switched ws prev cur).1._threads j = ws._threads j := by
  simp [switched, Function.update_noteq hj]

/-! ### The scheduling invariant along executions -/

theorem startThreadLoop_nomem (p f : Nat) (w : World) (n i : Nat) :
    startThreadLoop p f 0 w n i = (-1, w) := by
  induction n generalizing i with
  | zero => rfl
  | succ n ih =>
    unfold startThreadLoop
    split
    · split
      · rfl
      · exact ih (i + 1)
    · rfl

theorem startThread_nomem (p f : Nat) (w : World) : startThread p f 0 w = (-1, w) := by
  unfold startThread
  split
  · rfl
  · exact startThreadLoop_nomem p f w _ 0

theorem Inv.of_state_eq {n : Nat} {w w1 : World} (h : Inv n w)
    (hcur : w1._currentThread = w._currentThread)
    (hst : ∀ j, (w1._threads j).state = (w._threads j).state) : Inv n w1 where
  pos := h.pos
  le := h.le
  occ := fun j => by rw [hst j]; exact h.occ j
  cur := by rw [hcur]; exact h.cur
  running := fun j => by rw [hst j, hcur]; exact h.running j

theorem Inv.init (w : World) : Inv 1 (initThreads w) where
  pos := le_rfl
  le := by decide
  occ := initThreads_occupied w
  cur := by simp [initThreads]
  running := fun j => by
    by_cases hj : j = 0
    · subst hj
      rw [initThreads_threads_zero]
      simp [initThreads]
    · rw [initThreads_threads_succ w j hj]
      have : j.val ≠ 0 := fun h => hj (Fin.ext h)
      simp [Thread.zero, initThreads, this]

theorem Inv.startedAt_inv {n : Nat} {w : World} (h : Inv n w) (p f b : Nat) (hn : n < MAX_THREADS) :
    Inv (n + 1) (startedAt p f b w ⟨n, hn⟩) where
  pos := by omega
  le := hn
  occ := startedAt_occupied p f b w n hn h.occ
  cur := Nat.lt_succ_of_lt h.cur
  running := fun j => by
    have hc := h.cur
    by_cases hj : j = ⟨n, hn⟩
    · subst hj
      simp only [Dispatcher.startedAt, Function.update_same]
      constructor
      · intro hh; cases hh
      · intro hh; simp only at hh; omega
    · simp only [Dispatcher.startedAt, Function.update_noteq hj]
      exact h.running j

theorem Inv.start {n : Nat} {w : World} (h : Inv n w) (p f b : Nat) :
    ∃ m, n ≤ m ∧ Inv m (startThread p f b w).2 := by
  by_cases hf : f = 0
  · subst hf; rw [startThread_null]; exact ⟨n, le_rfl, h⟩
  by_cases hb : b = 0
  · subst hb; rw [startThread_nomem]; exact ⟨n, le_rfl, h⟩
  by_cases hn : n < MAX_THREADS
  · rw [startThread_occupied p f b hf hb w n hn h.occ]
    exact ⟨n + 1, Nat.le_succ n, h.startedAt_inv p f b hn⟩
  · rw [startThread_occupied_full p f b w n (by omega) h.occ]
    exact ⟨n, le_rfl, h⟩

theorem Inv.markReady_state {n : Nat} {w : World} (h : Inv n w) (hc : w._currentThread < MAX_THREADS)
    (j : Fin MAX_THREADS) :
    (markReady w ⟨w._currentThread, hc⟩ j).state
      = if j.val < n then STATE_READY else STATE_UNUSED := by
  by_cases hj : j = ⟨w._currentThread, hc⟩
  · subst hj
    rw [markReady_cur, if_pos h.cur]
  · rw [markReady_of_ne _ _ _ hj]
    have hne : j.val ≠ w._currentThread := fun hh => hj (Fin.ext hh)
    have hnr : (w._threads j).state ≠ STATE_RUNNING := fun hh => hne ((h.running j).1 hh)
    have hocc := h.occ j
    by_cases hjn : j.val < n
    · rw [if_pos hjn]
      cases hs : (w._threads j).state with
      | STATE_UNUSED => have := hocc.1 hs; omega
      | STATE_READY => rfl
      | STATE_RUNNING => exact absurd hs hnr
    · rw [if_neg hjn]
      exact hocc.2 (by omega)

/-- The thread scheduled after `c` when `n` threads exist. -/
theorem Inv.next_lt {n : Nat} {w : World} (h : Inv n w) :
    (w._currentThread + 1) % n < MAX_THREADS :=
  lt_of_lt_of_le (Nat.mod_lt _ h.pos) h.le

theorem Inv.schedule_eq {n : Nat} {w : World} (h : Inv n w) :
    _scheduleNextThread w
      = .ok (scheduled w ⟨w._currentThread, lt_of_lt_of_le h.cur h.le⟩
          ⟨(w._currentThread + 1) % n, h.next_lt⟩) := by
  have hc : w._currentThread < MAX_THREADS := lt_of_lt_of_le h.cur h.le
  have hrun : (w._threads ⟨w._currentThread, hc⟩).state = STATE_RUNNING :=
    (h.running ⟨w._currentThread, hc⟩).2 rfl
  have hcn := h.cur
  have hle := h.le
  unfold _scheduleNextThread
  by_cases hnext : w._currentThread + 1 < n
  · have hsl : slot (w._currentThread + 1) = ⟨(w._currentThread + 1) % n, h.next_lt⟩ := by
      apply Fin.ext
      simp only [slot]
      rw [Nat.mod_eq_of_lt hnext, Nat.mod_eq_of_lt (by omega)]
    rw [scheduleNextThreadFuel_eq w hc hrun 1 le_rfl _ (by decide)
      (by rw [h.markReady_state hc, hsl, if_pos (Nat.mod_lt _ h.pos)])
      (fun e he1 he2 => by omega), hsl]
    rfl
  · have hcn1 : w._currentThread + 1 = n := by omega
    have hsl : slot (w._currentThread + (MAX_THREADS - w._currentThread))
        = ⟨(w._currentThread + 1) % n, h.next_lt⟩ := by
      apply Fin.ext
      simp only [slot]
      rw [hcn1, Nat.mod_self, show w._currentThread + (MAX_THREADS - w._currentThread)
        = MAX_THREADS by omega, Nat.mod_self]
    rw [scheduleNextThreadFuel_eq w hc hrun (MAX_THREADS - w._currentThread) (by omega) _
      (by omega)
      (by rw [h.markReady_state hc, hsl, if_pos (Nat.mod_lt _ h.pos)])
      (fun e he1 he2 => by
        rw [h.markReady_state hc]
        have : (slot (w._currentThread + e)).val = w._currentThread + e := by
          simp only [slot]
          exact Nat.mod_eq_of_lt (by omega)
        rw [if_neg (by omega)]
        simp), hsl]
    rfl

theorem Inv.scheduled_inv {n : Nat} {w : World} (h : Inv n w) (hc : w._currentThread < MAX_THREADS)
    (sel : Fin MAX_THREADS) (hsel : sel.val < n) :
    Inv n (scheduled w ⟨w._currentThread, hc⟩ sel) where
  pos := h.pos
  le := h.le
  occ := fun j => by
    by_cases hj : j = sel
    · subst hj
      rw [scheduled_threads_sel]
      simp only [false_iff, reduceCtorEq]
      omega
    · rw [scheduled_threads_of_ne _ _ _ _ hj, h.markReady_state hc]
      by_cases hjn : j.val < n
      · rw [if_pos hjn]; simp only [false_iff, reduceCtorEq]; omega
      · rw [if_neg hjn]; simp only [true_iff]; omega
  cur := hsel
  running := fun j => by
    by_cases hj : j = sel
    · subst hj
      rw [scheduled_threads_sel]
      simp [Dispatcher.scheduled]
    · rw [scheduled_threads_of_ne _ _ _ _ hj, h.markReady_state hc]
      have hne : j.val ≠ sel.val := fun hh => hj (Fin.ext hh)
      simp only [Dispatcher.scheduled]
      split <;> simp [hne]

theorem Inv.schedule {n : Nat} {w : World} (h : Inv n w) :
    ∃ w1, _scheduleNextThread w = .ok w1 ∧ Inv n w1 ∧
      w1._currentThread = (w._currentThread + 1) % n :=
  ⟨_, h.schedule_eq, h.scheduled_inv _ _ (Nat.mod_lt _ h.pos), rfl⟩

theorem inv_step {n : Nat} {w w1 : World} (h : Inv n w) (a : Action)
    (hs : step a w = some w1) : ∃ m, n ≤ m ∧ Inv m w1 := by
  cases a with
  | start p f b =>
    simp only [Dispatcher.step, Option.some.injEq] at hs
    subst hs
    exact h.start p f b
  | schedule =>
    simp only [Dispatcher.step, h.schedule_eq, Except.toOption, Option.some.injEq] at hs
    subst hs
    exact ⟨n, le_rfl, h.scheduled_inv _ _ (Nat.mod_lt _ h.pos)⟩
  | yield =>
    simp only [Dispatcher.step] at hs
    cases hy : yield w with
    | error e => rw [hy] at hs; simp [Except.toOption] at hs
    | ok res =>
      obtain ⟨w2, r⟩ := res
      rw [hy] at hs
      simp only [Except.toOption, Option.map_some', Option.some.injEq] at hs
      subst hs
      obtain ⟨ws, hp, hc, hsch, _, _, _, heq⟩ := yield_ok w w2 r hy
      rw [h.schedule_eq] at hsch
      injection hsch with hsch
      have hw2 : w2 = (switched ws ⟨w._currentThread, hp⟩ ⟨ws._currentThread, hc⟩).1 :=
        congrArg Prod.fst heq
      have hinv : Inv n ws := by
        rw [← hsch]
        exact h.scheduled_inv _ _ (Nat.mod_lt _ h.pos)
      refine ⟨n, le_rfl, hinv.of_state_eq ?_ ?_⟩
      · rw [hw2, switched_current]
      · intro j; rw [hw2, switched_state]
  | run c m =>
    simp only [Dispatcher.step, Option.some.injEq] at hs
    subst hs
    exact ⟨n, le_rfl, h.of_state_eq rfl (fun _ => rfl)⟩

theorem inv_exec {n : Nat} {w w1 : World} (h : Inv n w) (acts : List Action)
    (hs : exec acts w = some w1) : ∃ m, n ≤ m ∧ Inv m w1 := by
  induction acts generalizing n w with
  | nil =>
    simp only [Dispatcher.exec, Option.some.injEq] at hs
    subst hs
    exact ⟨n, le_rfl, h⟩
  | cons a rest ih =>
    simp only [Dispatcher.exec] at hs
    cases hst : step a w with
    | none => rw [hst] at hs; simp at hs
    | some w2 =>
      rw [hst] at hs
      simp only [Option.some_bind] at hs
      obtain ⟨m, hnm, hm⟩ := inv_step h a hst
      obtain ⟨k, hmk, hk⟩ := ih hm hs
      exact ⟨k, le_trans hnm hmk, hk⟩

theorem reachable_inv (w0 w : World) (acts : List Action)
    (h : exec acts (initThreads w0) = some w) : ∃ n, Inv n w :=
  let ⟨n, _, hn⟩ := inv_exec (Inv.init w0) acts h
  ⟨n, hn⟩

theorem Inv.liveCount_eq {n : Nat} {w : World} (h : Inv n w) : liveCount w = n := by
  have hfilter : (Finset.univ.filter (fun j : Fin MAX_THREADS =>
      (w._threads j).state ≠ STATE_UNUSED))
      = Finset.univ.filter (fun j : Fin MAX_THREADS => j.val < n) := by
    apply Finset.filter_congr
    intro j _
    rw [Ne, h.occ j]
    omega
  unfold Dispatcher.liveCount
  rw [hfilter]
  have hpos := h.pos
  have hle := h.le
  unfold MAX_THREADS at hle
  interval_cases n <;> rfl

/-- C7: in every state reached from `initThreads` by `startThread` calls,
scheduling steps and `yield` calls that completed (with any computation of the
running thread in between), `_currentThread` is in `0 .. 9`, the record it
names is `STATE_RUNNING`, it is the only such record, and every other record
is `STATE_READY` or `STATE_UNUSED`. -/
theorem one_running (w0 w : World) (acts : List Action)
    (h : exec acts (initThreads w0) = some w) :
    ∃ hc : w._currentThread < MAX_THREADS,
      (w._threads ⟨w._currentThread, hc⟩).state = STATE_RUNNING ∧
      (∃! j : Fin MAX_THREADS, (w._threads j).state = STATE_RUNNING) ∧
      ∀ j : Fin MAX_THREADS, j ≠ ⟨w._currentThread, hc⟩ →
        (w._threads j).state = STATE_READY ∨ (w._threads j).state = STATE_UNUSED := by
  obtain ⟨n, hn⟩ := reachable_inv w0 w acts h
  have hc : w._currentThread < MAX_THREADS := lt_of_lt_of_le hn.cur hn.le
  refine ⟨hc, (hn.running _).2 rfl, ⟨⟨w._currentThread, hc⟩, (hn.running _).2 rfl, ?_⟩, ?_⟩
  · intro j hj
    exact Fin.ext ((hn.running j).1 hj)
  · intro j hj
    have hne : (w._threads j).state ≠ STATE_RUNNING :=
      fun hh => hj (Fin.ext ((hn.running j).1 hh))
    cases hs : (w._threads j).state with
    | STATE_UNUSED => exact Or.inr rfl
    | STATE_READY => exact Or.inl rfl
    | STATE_RUNNING => exact absurd hs hne

theorem one_running_witness :
    ∃ hc : sampleWorld._currentThread < MAX_THREADS,
      (sampleWorld._threads ⟨sampleWorld._currentThread, hc⟩).state = STATE_RUNNING ∧
      (∃! j : Fin MAX_THREADS, (sampleWorld._threads j).state = STATE_RUNNING) ∧
      ∀ j : Fin MAX_THREADS, j ≠ ⟨sampleWorld._currentThread, hc⟩ →
        (sampleWorld._threads j).state = STATE_READY ∨
        (sampleWorld._threads j).state = STATE_UNUSED :=
  one_running junkWorld sampleWorld sampleActs rfl

theorem Inv.scheduleSteps_eq {n : Nat} (k : Nat) :
    ∀ {w : World}, Inv n w →
      ∃ w1, scheduleSteps k w
          = some ((List.range k).map (fun j => (w._currentThread + (j + 1)) % n), w1) ∧
        Inv n w1 ∧ w1._currentThread = (w._currentThread + k) % n := by
  induction k with
  | zero =>
    intro w h
    exact ⟨w, rfl, h, (Nat.mod_eq_of_lt h.cur).symm⟩
  | succ k ih =>
    intro w h
    obtain ⟨w1, hs, hinv, hcur⟩ := h.schedule
    obtain ⟨w2, hs2, hinv2, hcur2⟩ := ih hinv
    refine ⟨w2, ?_, hinv2, ?_⟩
    · unfold Dispatcher.scheduleSteps
      rw [hs]
      simp only
      rw [hs2, Option.map_some', List.range_succ_eq_map, List.map_cons, List.map_map, hcur]
      simp only [Nat.zero_add, Option.some.injEq, Prod.mk.injEq, List.cons.injEq, true_and,
        and_true]
      apply List.map_congr_left
      intro j _
      simp only [Function.comp, Nat.succ_eq_add_one]
      rw [Nat.mod_add_mod]
      congr 1
      omega
    · rw [hcur2, hcur, Nat.mod_add_mod]
      congr 1
      omega

theorem rotation_perm (n c : Nat) (hn : n ≤ MAX_THREADS) (hc : c < n) :
    List.Perm ((List.range n).map (fun j => (c + (j + 1)) % n)) (List.range n) := by
  unfold MAX_THREADS at hn
  interval_cases n <;> interval_cases c <;> decide

/-- C4: round robin.  In a state reached from `initThreads` by `startThread`
calls, scheduling steps and yields in which `N` slots are ready or running and
thread `i` is current, `N` consecutive runs of `_scheduleNextThread` succeed,
the `j`-th of them selects thread `(i + j) mod N`, the threads selected are
each of `0 .. N-1` exactly once, and the last run selects `i` again. -/
theorem round_robin (w0 w : World) (acts : List Action)
    (h : exec acts (initThreads w0) = some w) (N : Nat) (hN : liveCount w = N) :
    ∃ w1, scheduleSteps N w
        = some ((List.range N).map (fun j => (w._currentThread + (j + 1)) % N), w1) ∧
      List.Perm ((List.range N).map (fun j => (w._currentThread + (j + 1)) % N))
        (List.range N) ∧
      w1._currentThread = w._currentThread := by
  obtain ⟨n, hn⟩ := reachable_inv w0 w acts h
  have hnN : n = N := by rw [← hN, hn.liveCount_eq]
  subst hnN
  obtain ⟨w1, hs, _, hcur⟩ := hn.scheduleSteps_eq n
  refine ⟨w1, hs, rotation_perm n _ hn.le hn.cur, ?_⟩
  rw [hcur, Nat.add_mod_right, Nat.mod_eq_of_lt hn.cur]

/-- The test `test_twothreads.c`: the host and two created threads run in the
order 1, 2, 0. -/
theorem round_robin_witness :
    ∃ w1, scheduleSteps 3 (startThread 64 256 16384 (startThread 64 128 8192
          (initThreads junkWorld)).2).2
        = some ([1, 2, 0], w1) ∧
      List.Perm [1, 2, 0] (List.range 3) ∧
      w1._currentThread = 0 :=
  round_robin junkWorld (startThread 64 256 16384 (startThread 64 128 8192
    (initThreads junkWorld)).2).2 [.start 64 128 8192, .start 64 256 16384] rfl 3 (by decide)

/-! ### Memory: loads after stores -/

theorem loadB_storeQ_same (mem : Memory) (a v i : Nat) (hi : i < 8) :
    loadB (storeQ mem a v) a i = v / 256 ^ i % 256 := by
  unfold loadB storeQ
  have hoff : ((a + i) % WORD + WORD - a % WORD) % WORD = i := by
    unfold WORD; omega
  have hlt : (a + i) % WORD < WORD := Nat.mod_lt _ (by decide)
  rw [hoff, if_pos ⟨hi, hlt⟩]
  exact Nat.mod_mod _ _

theorem loadB_storeQ_other (mem : Memory) (a v b i : Nat)
    (h : 8 ≤ ((b + i) % WORD + WORD - a % WORD) % WORD) :
    loadB (storeQ mem a v) b i = loadB mem b i := by
  unfold loadB storeQ
  rw [if_neg (fun hh => by omega)]

theorem bytes_sum (v : Nat) (hv : v < WORD) :
    v / 256 ^ 0 % 256 + v / 256 ^ 1 % 256 * 256 + v / 256 ^ 2 % 256 * 256 ^ 2
      + v / 256 ^ 3 % 256 * 256 ^ 3 + v / 256 ^ 4 % 256 * 256 ^ 4 + v / 256 ^ 5 % 256 * 256 ^ 5
      + v / 256 ^ 6 % 256 * 256 ^ 6 + v / 256 ^ 7 % 256 * 256 ^ 7 = v := by
  unfold WORD at hv
  norm_num
  omega

theorem loadQ_storeQ_same (mem : Memory) (a v : Nat) (hv : v < WORD) :
    loadQ (storeQ mem a v) a = v := by
  unfold loadQ
  rw [loadB_storeQ_same _ _ _ 0 (by decide), loadB_storeQ_same _ _ _ 1 (by decide),
    loadB_storeQ_same _ _ _ 2 (by decide), loadB_storeQ_same _ _ _ 3 (by decide),
    loadB_storeQ_same _ _ _ 4 (by decide), loadB_storeQ_same _ _ _ 5 (by decide),
    loadB_storeQ_same _ _ _ 6 (by decide), loadB_storeQ_same _ _ _ 7 (by decide)]
  exact bytes_sum v hv

/-! ### `yield` with at least two threads -/

theorem contextSwitch_prevSp (c : Cpu) (mem : Memory) (sp : Nat) (flag : Int) :
    (contextSwitch c mem sp flag).1 = (c.rsp + WORD - 6 * 8) % WORD := by
  unfold contextSwitch
  simp only
  split <;> rfl

theorem switched_prev_sp (ws : World) (prev cur : Fin MAX_THREADS) :
    ((switched ws prev cur).1._threads prev).currentSP = (ws.cpu.rsp + WORD - 6 * 8) % WORD := by
  simp only [switched, Function.update_same]
  exact contextSwitch_prevSp _ _ _ _

theorem scheduled_cpu (w : World) (cur sel : Fin MAX_THREADS) :
    (scheduled w cur sel).cpu = w.cpu := rfl

theorem scheduled_sp (w : World) (cur sel j : Fin MAX_THREADS) :
    ((scheduled w cur sel)._threads j).currentSP = (w._threads j).currentSP := by
  rw [scheduled_only_state]

/-- With at least two threads the scheduler leaves the current thread. -/
theorem Inv.next_ne {n : Nat} {w : World} (h : Inv n w) (h2 : 2 ≤ n) :
    (w._currentThread + 1) % n ≠ w._currentThread := by
  have hc := h.cur
  by_cases hnext : w._currentThread + 1 < n
  · rw [Nat.mod_eq_of_lt hnext]; omega
  · have : w._currentThread + 1 = n := by omega
    rw [this, Nat.mod_self]; omega

theorem Inv.ready_of_ne {n : Nat} {w : World} (h : Inv n w) (j : Fin MAX_THREADS)
    (hjn : j.val < n) (hj : j.val ≠ w._currentThread) : (w._threads j).state = STATE_READY := by
  have hc : w._currentThread < MAX_THREADS := lt_of_lt_of_le h.cur h.le
  have hne : j ≠ ⟨w._currentThread, hc⟩ := fun hh => hj (congrArg Fin.val hh)
  rw [← markReady_of_ne w _ j hne, h.markReady_state hc, if_pos hjn]

theorem Inv.yield_switched {n : Nat} {w : World} (h : Inv n w) (h2 : 2 ≤ n) (hsp : ReadyHaveStacks w) :
    yield w = .ok (switched
      (scheduled w ⟨w._currentThread, lt_of_lt_of_le h.cur h.le⟩
        ⟨(w._currentThread + 1) % n, h.next_lt⟩)
      ⟨w._currentThread, lt_of_lt_of_le h.cur h.le⟩
      ⟨(w._currentThread + 1) % n, h.next_lt⟩) := by
  have hc : w._currentThread < MAX_THREADS := lt_of_lt_of_le h.cur h.le
  have hne : (⟨w._currentThread, hc⟩ : Fin MAX_THREADS) ≠ ⟨(w._currentThread + 1) % n, h.next_lt⟩ :=
    fun hh => h.next_ne h2 (congrArg Fin.val hh).symm
  refine Dispatcher.yield_eq w _ h.schedule_eq hc h.next_lt ?_ ?_ ?_
  · rw [scheduled_threads_of_ne _ _ _ _ hne]
    exact markReady_cur _ _
  · exact (scheduled_threads_sel _ _ _).symm ▸ rfl
  · show ((scheduled w _ _)._threads ⟨(w._currentThread + 1) % n, h.next_lt⟩).currentSP ≠ 0
    rw [scheduled_sp]
    exact hsp _ (h.ready_of_ne _ (Nat.mod_lt _ h.pos) (h.next_ne h2))

theorem ReadyHaveStacks.init_stacks (w : World) : ReadyHaveStacks (initThreads w) := by
  intro j hj
  by_cases h0 : j = 0
  · subst h0
    rw [initThreads_threads_zero] at hj
    cases hj
  · rw [initThreads_threads_succ w j h0] at hj
    cases hj

theorem ReadyHaveStacks.startedAt_stacks {w : World} (h : ReadyHaveStacks w) (p f b : Nat)
    (k : Fin MAX_THREADS) : ReadyHaveStacks (startedAt p f b w k) := by
  intro j hj
  by_cases hjk : j = k
  · subst hjk
    simp only [startedAt, Function.update_same]
    unfold STACK_SIZE
    omega
  · simp only [startedAt, Function.update_noteq hjk] at hj ⊢
    exact h j hj

theorem ReadyHaveStacks.start_stacks {n : Nat} {w : World} (hinv : Inv n w) (h : ReadyHaveStacks w)
    (p f b : Nat) : ReadyHaveStacks (startThread p f b w).2 := by
  by_cases hf : f = 0
  · subst hf; rw [startThread_null]; exact h
  by_cases hb : b = 0
  · subst hb; rw [startThread_nomem]; exact h
  by_cases hn : n < MAX_THREADS
  · rw [startThread_occupied p f b hf hb w n hn hinv.occ]
    exact h.startedAt_stacks p f b _
  · rw [startThread_occupied_full p f b w n (by omega) hinv.occ]
    exact h

theorem ReadyHaveStacks.switched_stacks {w : World} (h : ReadyHaveStacks w) (hrsp : (w.cpu.rsp + WORD - 6 * 8) % WORD ≠ 0)
    (hc : w._currentThread < MAX_THREADS) (sel : Fin MAX_THREADS) :
    ReadyHaveStacks
      (switched (scheduled w ⟨w._currentThread, hc⟩ sel) ⟨w._currentThread, hc⟩ sel).1 := by
  intro j hj
  by_cases hjp : j = ⟨w._currentThread, hc⟩
  · subst hjp
    rw [switched_prev_sp, scheduled_cpu]
    exact hrsp
  · rw [switched_state] at hj
    rw [switched_of_ne _ _ _ _ hjp, scheduled_sp]
    by_cases hjs : j = sel
    · subst hjs
      rw [scheduled_threads_sel] at hj
      cases hj
    · rw [scheduled_threads_of_ne _ _ _ _ hjs, markReady_of_ne _ _ _ hjp] at hj
      exact h j hj

theorem yieldRun_step {n : Nat} {w w1 : World} (hinv : Inv n w) (h : ReadyHaveStacks w)
    (a : Action) (ha : yieldRun a w) (hs : step a w = some w1) : ReadyHaveStacks w1 := by
  cases a with
  | start p f b =>
    simp only [step, Option.some.injEq] at hs
    subst hs
    exact h.start_stacks hinv p f b
  | schedule => exact absurd ha (by simp [yieldRun])
  | yield =>
    simp only [step] at hs
    cases hy : yield w with
    | error e => rw [hy] at hs; simp [Except.toOption] at hs
    | ok res =>
      obtain ⟨w2, r⟩ := res
      rw [hy] at hs
      simp only [Except.toOption, Option.map_some', Option.some.injEq] at hs
      subst hs
      obtain ⟨ws, hp, hc, hsch, _, _, _, heq⟩ := yield_ok w w2 r hy
      rw [hinv.schedule_eq] at hsch
      injection hsch with hsch
      subst hsch
      have hw2 : w2 = (switched _ ⟨w._currentThread, hp⟩ _).1 := congrArg Prod.fst heq
      rw [hw2]
      exact h.switched_stacks ha hp _
  | run c m =>
    simp only [step, Option.some.injEq] at hs
    subst hs
    exact h

theorem yieldRun_exec {n : Nat} {w w1 : World} (hinv : Inv n w) (h : ReadyHaveStacks w)
    (acts : List Action) (ha : AlwaysAt yieldRun acts w) (hs : exec acts w = some w1) :
    ReadyHaveStacks w1 := by
  induction acts generalizing n w with
  | nil =>
    simp only [exec, Option.some.injEq] at hs
    subst hs
    exact h
  | cons a rest ih =>
    simp only [exec] at hs
    cases hst : step a w with
    | none => rw [hst] at hs; simp at hs
    | some w2 =>
      rw [hst] at hs
      simp only [Option.some_bind] at hs
      obtain ⟨m, _, hm⟩ := inv_step hinv a hst
      have ha2 : AlwaysAt yieldRun rest w2 := by
        have := ha.2
        rw [hst] at this
        exact this
      exact ih hm (yieldRun_step hinv h a ha.1 hst) ha2 hs

/-- C6, as stated, fails: right after `initThreads`, where the host is the only
thread, `yield` aborts on an assertion. -/
theorem yield_alone_counterexample : yield (initThreads junkWorld) = .error .assertion := rfl

/-- C6, amended: in every state reached from `initThreads` by `startThread`
calls, `yield` calls and computation of the running thread, in which at least
one thread besides the host exists and every `yield` so far recorded a non-null
stack pointer for the thread it suspended, a call to `yield` passes its
assertions and completes the switch; in particular the incoming thread has a
non-null saved stack pointer. -/
theorem yield_succeeds (w0 w : World) (acts : List Action)
    (hrun : AlwaysAt yieldRun acts (initThreads w0))
    (h : exec acts (initThreads w0) = some w) (hlive : 2 ≤ liveCount w) :
    ∃ (w1 : World) (r : Resume), yield w = .ok (w1, r) ∧
      ∃ hc : w1._currentThread < MAX_THREADS,
        (w._threads ⟨w1._currentThread, hc⟩).currentSP ≠ 0 := by
  obtain ⟨n, _, hn⟩ := inv_exec (Inv.init w0) acts h
  have hsp := yieldRun_exec (Inv.init w0) (ReadyHaveStacks.init_stacks w0) acts hrun h
  rw [hn.liveCount_eq] at hlive
  refine ⟨_, _, hn.yield_switched hlive hsp, hn.next_lt, ?_⟩
  exact hsp _ (hn.ready_of_ne _ (Nat.mod_lt _ hn.pos) (hn.next_ne hlive))

theorem yield_succeeds_witness :
    ∃ (w1 : World) (r : Resume), yield yieldWorld = .ok (w1, r) ∧
      ∃ hc : w1._currentThread < MAX_THREADS,
        (yieldWorld._threads ⟨w1._currentThread, hc⟩).currentSP ≠ 0 :=
  yield_succeeds junkWorld yieldWorld yieldActs
    (by decide) rfl (by decide)

/-! ### The context switch: what is pushed is what is popped -/

theorem sub_chain (x k m : Nat) (hk : k + 8 = m) (hm : m ≤ 48) :
    ((x + WORD - k) % WORD + WORD - 8) % WORD = (x + WORD - m) % WORD := by
  unfold WORD; omega

theorem add_chain (x k m : Nat) (hk : k + 8 = m) :
    ((x + k) % WORD + 8) % WORD = (x + m) % WORD := by
  unfold WORD; omega

theorem contextSwitch_mem (c : Cpu) (mem : Memory) (sp : Nat) (flag : Int) :
    (contextSwitch c mem sp flag).2.2.1 = pushAll c mem := by
  have h1 := sub_chain c.rsp 8 16 rfl (by decide)
  have h2 := sub_chain c.rsp 16 24 rfl (by decide)
  have h3 := sub_chain c.rsp 24 32 rfl (by decide)
  have h4 := sub_chain c.rsp 32 40 rfl (by decide)
  have h5 := sub_chain c.rsp 40 48 rfl (by decide)
  unfold contextSwitch pushAll pushq
  simp only [h1, h2, h3, h4, h5]
  split
  · simp only []
  · simp only []

theorem contextSwitch_cpu (c : Cpu) (mem : Memory) (sp : Nat) (flag : Int) (hflag : flag ≠ 0) :
    (contextSwitch c mem sp flag).2.1 = popAll (pushAll c mem) sp ∧
    (contextSwitch c mem sp flag).2.2.2 = .epilog := by
  have h1 := sub_chain c.rsp 8 16 rfl (by decide)
  have h2 := sub_chain c.rsp 16 24 rfl (by decide)
  have h3 := sub_chain c.rsp 24 32 rfl (by decide)
  have h4 := sub_chain c.rsp 32 40 rfl (by decide)
  have h5 := sub_chain c.rsp 40 48 rfl (by decide)
  have g0 : (sp + 8) % WORD = (sp + 8) % WORD := rfl
  have g1 := add_chain sp 8 16 rfl
  have g2 := add_chain sp 16 24 rfl
  have g3 := add_chain sp 24 32 rfl
  have g4 := add_chain sp 32 40 rfl
  have g5 := add_chain sp 40 48 rfl
  unfold contextSwitch pushAll popAll pushq popq
  simp only [h1, h2, h3, h4, h5, g1, g2, g3, g4, g5, hflag, ne_eq, not_false_eq_true, if_true,
    and_self]

theorem loadQ_storeQ_other (mem : Memory) (a v b : Nat)
    (h : 8 ≤ (b % WORD + WORD - a % WORD) % WORD ∧
      (b % WORD + WORD - a % WORD) % WORD ≤ WORD - 8) :
    loadQ (storeQ mem a v) b = loadQ mem b := by
  unfold loadQ
  rw [loadB_storeQ_other _ _ _ _ 0 (by unfold WORD at *; omega),
    loadB_storeQ_other _ _ _ _ 1 (by unfold WORD at *; omega),
    loadB_storeQ_other _ _ _ _ 2 (by unfold WORD at *; omega),
    loadB_storeQ_other _ _ _ _ 3 (by unfold WORD at *; omega),
    loadB_storeQ_other _ _ _ _ 4 (by unfold WORD at *; omega),
    loadB_storeQ_other _ _ _ _ 5 (by unfold WORD at *; omega),
    loadB_storeQ_other _ _ _ _ 6 (by unfold WORD at *; omega),
    loadB_storeQ_other _ _ _ _ 7 (by unfold WORD at *; omega)]

theorem loadB_shift (m : Memory) (sp k i : Nat) :
    loadB m ((sp + k) % WORD) i = loadB m sp (k + i) := by
  unfold loadB
  congr 2
  unfold WORD; omega

theorem loadQ_congr (m m1 : Memory) (sp k : Nat) (hk : k + 8 ≤ 48)
    (h : SameBytes m m1 sp 48) : loadQ m ((sp + k) % WORD) = loadQ m1 ((sp + k) % WORD) := by
  unfold loadQ
  simp only [loadB_shift]
  rw [h (k + 0) (by omega), h (k + 1) (by omega), h (k + 2) (by omega), h (k + 3) (by omega),
    h (k + 4) (by omega), h (k + 5) (by omega), h (k + 6) (by omega), h (k + 7) (by omega)]

theorem loadQ_congr_zero (m m1 : Memory) (sp : Nat)
    (h : SameBytes m m1 sp 48) : loadQ m sp = loadQ m1 sp := by
  unfold loadQ
  rw [h 0 (by omega), h 1 (by omega), h 2 (by omega), h 3 (by omega),
    h 4 (by omega), h 5 (by omega), h 6 (by omega), h 7 (by omega)]

theorem popAll_congr (m m1 : Memory) (sp : Nat) (h : SameBytes m m1 sp 48) :
    popAll m sp = popAll m1 sp := by
  unfold popAll
  rw [loadQ_congr_zero m m1 sp h, loadQ_congr m m1 sp 8 (by decide) h,
    loadQ_congr m m1 sp 16 (by decide) h, loadQ_congr m m1 sp 24 (by decide) h,
    loadQ_congr m m1 sp 32 (by decide) h, loadQ_congr m m1 sp 40 (by decide) h]

theorem popAll_pushAll (c : Cpu) (hv : c.Valid) (mem : Memory) :
    popAll (pushAll c mem) ((c.rsp + WORD - 48) % WORD) = c := by
  obtain ⟨hsp, hbp, hbx, h12, h13, h14, h15⟩ := hv
  have e0 : ((c.rsp + WORD - 48) % WORD + 48) % WORD = c.rsp := by unfold WORD at *; omega
  have e1 : ((c.rsp + WORD - 48) % WORD + 8) % WORD = (c.rsp + WORD - 40) % WORD := by
    unfold WORD; omega
  have e2 : ((c.rsp + WORD - 48) % WORD + 16) % WORD = (c.rsp + WORD - 32) % WORD := by
    unfold WORD; omega
  have e3 : ((c.rsp + WORD - 48) % WORD + 24) % WORD = (c.rsp + WORD - 24) % WORD := by
    unfold WORD; omega
  have e4 : ((c.rsp + WORD - 48) % WORD + 32) % WORD = (c.rsp + WORD - 16) % WORD := by
    unfold WORD; omega
  have e5 : ((c.rsp + WORD - 48) % WORD + 40) % WORD = (c.rsp + WORD - 8) % WORD := by
    unfold WORD; omega
  unfold popAll
  rw [e0, e1, e2, e3, e4, e5]
  have l15 : loadQ (pushAll c mem) ((c.rsp + WORD - 48) % WORD) = c.r15 := by
    unfold pushAll
    rw [loadQ_storeQ_same _ _ _ h15]
  have l14 : loadQ (pushAll c mem) ((c.rsp + WORD - 40) % WORD) = c.r14 := by
    unfold pushAll
    rw [loadQ_storeQ_other _ _ _ _ (by unfold WORD; omega), loadQ_storeQ_same _ _ _ h14]
  have l13 : loadQ (pushAll c mem) ((c.rsp + WORD - 32) % WORD) = c.r13 := by
    unfold pushAll
    rw [loadQ_storeQ_other _ _ _ _ (by unfold WORD; omega),
      loadQ_storeQ_other _ _ _ _ (by unfold WORD; omega), loadQ_storeQ_same _ _ _ h13]
  have l12 : loadQ (pushAll c mem) ((c.rsp + WORD - 24) % WORD) = c.r12 := by
    unfold pushAll
    rw [loadQ_storeQ_other _ _ _ _ (by unfold WORD; omega),
      loadQ_storeQ_other _ _ _ _ (by unfold WORD; omega),
      loadQ_storeQ_other _ _ _ _ (by unfold WORD; omega), loadQ_storeQ_same _ _ _ h12]
  have lbx : loadQ (pushAll c mem) ((c.rsp + WORD - 16) % WORD) = c.rbx := by
    unfold pushAll
    rw [loadQ_storeQ_other _ _ _ _ (by unfold WORD; omega),
      loadQ_storeQ_other _ _ _ _ (by unfold WORD; omega),
      loadQ_storeQ_other _ _ _ _ (by unfold WORD; omega),
      loadQ_storeQ_other _ _ _ _ (by unfold WORD; omega), loadQ_storeQ_same _ _ _ hbx]
  have lbp : loadQ (pushAll c mem) ((c.rsp + WORD - 8) % WORD) = c.rbp := by
    unfold pushAll
    rw [loadQ_storeQ_other _ _ _ _ (by unfold WORD; omega),
      loadQ_storeQ_other _ _ _ _ (by unfold WORD; omega),
      loadQ_storeQ_other _ _ _ _ (by unfold WORD; omega),
      loadQ_storeQ_other _ _ _ _ (by unfold WORD; omega),
      loadQ_storeQ_other _ _ _ _ (by unfold WORD; omega), loadQ_storeQ_same _ _ _ hbp]
  rw [l15, l14, l13, l12, lbx, lbp]

/-! ### The record of a suspended thread is left alone -/

theorem scheduleNextThread_ok (w ws : World) (h : _scheduleNextThread w = .ok ws) :
    ∃ (hc : w._currentThread < MAX_THREADS) (sel : Fin MAX_THREADS),
      ws = scheduled w ⟨w._currentThread, hc⟩ sel := by
  by_cases hc : w._currentThread < MAX_THREADS
  · by_cases hrun : (w._threads ⟨w._currentThread, hc⟩).state = STATE_RUNNING
    · obtain ⟨d, hd1, hd10, hready, hnot⟩ :=
        exists_next_ready (markReady w ⟨w._currentThread, hc⟩) w._currentThread
          (by rw [slot_of_lt hc]; exact markReady_cur _ _)
      unfold _scheduleNextThread at h
      rw [scheduleNextThreadFuel_eq w hc hrun d hd1 _ hd10 hready hnot] at h
      injection h with h
      exact ⟨hc, _, h.symm⟩
    · unfold _scheduleNextThread scheduleNextThreadFuel at h
      rw [dif_pos hc, if_pos hrun] at h
      cases h
  · unfold _scheduleNextThread scheduleNextThreadFuel at h
    rw [dif_neg hc] at h
    cases h

theorem startThread_cases (p f b : Nat) (w : World) :
    (startThread p f b w).2 = w ∨
      ∃ k : Fin MAX_THREADS, (w._threads k).state = STATE_UNUSED ∧
        (startThread p f b w).2 = startedAt p f b w k := by
  by_cases hf : f = 0
  · subst hf; rw [startThread_null]; exact Or.inl rfl
  by_cases hb : b = 0
  · subst hb; rw [startThread_nomem]; exact Or.inl rfl
  by_cases hex : ∃ n, ∃ h : n < MAX_THREADS, (w._threads ⟨n, h⟩).state = STATE_UNUSED
  · obtain ⟨hk, hu⟩ := Nat.find_spec hex
    refine Or.inr ⟨⟨Nat.find hex, hk⟩, hu, ?_⟩
    rw [startThread_lowest p f b hf hb w ⟨Nat.find hex, hk⟩ hu
      (fun j hj hju => Nat.find_min hex hj ⟨j.isLt, hju⟩)]
  · left
    rw [startThread_full p f b w (fun j hj => hex ⟨j.val, j.isLt, hj⟩)]

theorem switched_mem (ws : World) (prev cur : Fin MAX_THREADS) :
    (switched ws prev cur).1.mem = pushAll ws.cpu ws.mem := by
  simp only [switched]
  exact contextSwitch_mem _ _ _ _

theorem switched_prev_flag (ws : World) (prev cur : Fin MAX_THREADS) :
    ((switched ws prev cur).1._threads prev).willReturnFromYield = 1 := by
  simp [switched]

theorem switched_resume (ws : World) (prev cur : Fin MAX_THREADS) (hne : cur ≠ prev)
    (hflag : (ws._threads cur).willReturnFromYield ≠ 0) :
    (switched ws prev cur).1.cpu = popAll (pushAll ws.cpu ws.mem) (ws._threads cur).currentSP ∧
    (switched ws prev cur).2 = .epilog := by
  simp only [switched, Function.update_noteq hne]
  exact contextSwitch_cpu _ _ _ _ hflag

theorem Parked.step_parked {self : Fin MAX_THREADS} {sp : Nat} {w w1 : World}
    (h : Parked self sp w) (a : Action) (hcur : w._currentThread ≠ self.val)
    (hs : step a w = some w1) : Parked self sp w1 := by
  cases a with
  | start p f b =>
    simp only [step, Option.some.injEq] at hs
    subst hs
    rcases startThread_cases p f b w with he | ⟨k, hk, he⟩
    · rw [he]; exact h
    · rw [he]
      have hne : self ≠ k := fun hh => h.1 (hh ▸ hk)
      simp only [Parked, startedAt, Function.update_noteq hne]
      exact h
  | schedule =>
    simp only [step] at hs
    cases hsch : _scheduleNextThread w with
    | error e => rw [hsch] at hs; simp [Except.toOption] at hs
    | ok ws =>
      rw [hsch] at hs
      simp only [Except.toOption, Option.some.injEq] at hs
      subst hs
      obtain ⟨hc, sel, rfl⟩ := scheduleNextThread_ok w _ hsch
      have hne : self ≠ ⟨w._currentThread, hc⟩ := fun hh => hcur (congrArg Fin.val hh).symm
      refine ⟨?_, ?_, ?_⟩
      · by_cases hsel : self = sel
        · subst hsel; rw [scheduled_threads_sel]; simp
        · rw [scheduled_threads_of_ne _ _ _ _ hsel, markReady_of_ne _ _ _ hne]; exact h.1
      · rw [scheduled_sp]; exact h.2.1
      · rw [scheduled_only_state]; exact h.2.2
  | yield =>
    simp only [step] at hs
    cases hy : yield w with
    | error e => rw [hy] at hs; simp [Except.toOption] at hs
    | ok res =>
      obtain ⟨w2, r⟩ := res
      rw [hy] at hs
      simp only [Except.toOption, Option.map_some', Option.some.injEq] at hs
      subst hs
      obtain ⟨ws, hp, hc2, hsch, _, _, _, heq⟩ := yield_ok w w2 r hy
      obtain ⟨hc, sel, rfl⟩ := scheduleNextThread_ok w _ hsch
      have hne : self ≠ ⟨w._currentThread, hc⟩ := fun hh => hcur (congrArg Fin.val hh).symm
      have hw2 : w2 = (switched _ ⟨w._currentThread, hp⟩ _).1 := congrArg Prod.fst heq
      rw [hw2]
      unfold Parked
      rw [switched_of_ne _ _ _ _ hne]
      refine ⟨?_, ?_, ?_⟩
      · by_cases hsel : self = sel
        · subst hsel; rw [scheduled_threads_sel]; simp
        · rw [scheduled_threads_of_ne _ _ _ _ hsel, markReady_of_ne _ _ _ hne]; exact h.1
      · rw [scheduled_sp]; exact h.2.1
      · rw [scheduled_only_state]; exact h.2.2
  | run c m =>
    simp only [step, Option.some.injEq] at hs
    subst hs
    exact h

theorem Parked.exec_parked {self : Fin MAX_THREADS} {sp : Nat} {w w1 : World}
    (h : Parked self sp w) (acts : List Action) (ha : AlwaysAt (Suspended self.val) acts w)
    (hs : exec acts w = some w1) : Parked self sp w1 := by
  induction acts generalizing w with
  | nil =>
    simp only [exec, Option.some.injEq] at hs
    subst hs
    exact h
  | cons a rest ih =>
    simp only [exec] at hs
    cases hst : step a w with
    | none => rw [hst] at hs; simp at hs
    | some w2 =>
      rw [hst] at hs
      simp only [Option.some_bind] at hs
      have ha2 : AlwaysAt (Suspended self.val) rest w2 := by
        have := ha.2
        rw [hst] at this
        exact this
      exact ih (h.step_parked a ha.1 hst) ha2 hs

/-- C5: register preservation.  Thread `T` calls `yield` in world `w` with
64-bit register values; the switch records `rsp - 48` as its saved stack
pointer.  Then the other threads act in any way (calls to `startThread` and
`yield`, computation) while `T` is suspended, and a `yield` switches back to
`T`.  If the 48 bytes from the saved stack pointer of `T` are then as the switch
away from `T` left them, `T` resumes through the normal epilogue with `rbp`,
`rbx`, `r12`, `r13`, `r14`, `r15` holding the values they had when `T` yielded
and with `rsp` as it was before the pushes. -/
theorem yield_restores_registers (w w1 w2 w3 : World) (r1 r3 : Resume) (acts : List Action)
    (hv : w.cpu.Valid)
    (hy : yield w = .ok (w1, r1))
    (hsusp : AlwaysAt (Suspended w._currentThread) acts w1)
    (hex : exec acts w1 = some w2)
    (hy2 : yield w2 = .ok (w3, r3))
    (hback : w3._currentThread = w._currentThread)
    (hstack : SameBytes w3.mem w1.mem ((w.cpu.rsp + WORD - 6 * 8) % WORD) 48) :
    (∃ hp : w._currentThread < MAX_THREADS,
      (w1._threads ⟨w._currentThread, hp⟩).currentSP = (w.cpu.rsp + WORD - 6 * 8) % WORD) ∧
    w3.cpu = w.cpu ∧ r3 = .epilog := by
  obtain ⟨ws, hp, hc, hsch, hready1, _, _, heq⟩ := yield_ok w w1 r1 hy
  obtain ⟨_, sel, rfl⟩ := scheduleNextThread_ok w _ hsch
  have hw1 : w1 = (switched _ ⟨w._currentThread, hp⟩ _).1 := congrArg Prod.fst heq
  have hsp1 : (w1._threads ⟨w._currentThread, hp⟩).currentSP
      = (w.cpu.rsp + WORD - 6 * 8) % WORD := by
    rw [hw1, switched_prev_sp, scheduled_cpu]
  have hmem1 : w1.mem = pushAll w.cpu w.mem := by
    rw [hw1, switched_mem]; rfl
  have hparked : Parked ⟨w._currentThread, hp⟩ ((w.cpu.rsp + WORD - 6 * 8) % WORD) w1 := by
    refine ⟨?_, hsp1, ?_⟩
    · rw [hw1, switched_state, hready1]
      decide
    · rw [hw1, switched_prev_flag]
  have hparked2 := hparked.exec_parked acts hsusp hex
  obtain ⟨ws2, hp2, hc2, hsch2, hready2, hrun2, _, heq2⟩ := yield_ok w2 w3 r3 hy2
  have hw3 : w3 = (switched ws2 ⟨w2._currentThread, hp2⟩ ⟨ws2._currentThread, hc2⟩).1 :=
    congrArg Prod.fst heq2
  have hr3 : r3 = (switched ws2 ⟨w2._currentThread, hp2⟩ ⟨ws2._currentThread, hc2⟩).2 :=
    congrArg Prod.snd heq2
  have hcur : ws2._currentThread = w._currentThread := by
    rw [← hback, hw3, switched_current]
  have hself : (⟨ws2._currentThread, hc2⟩ : Fin MAX_THREADS) = ⟨w._currentThread, hp⟩ :=
    Fin.ext hcur
  have hne : (⟨ws2._currentThread, hc2⟩ : Fin MAX_THREADS) ≠ ⟨w2._currentThread, hp2⟩ := by
    intro hh
    rw [hh, hready2] at hrun2
    cases hrun2
  obtain ⟨hc3, sel2, hws2⟩ := scheduleNextThread_ok w2 _ hsch2
  have hrec : (ws2._threads ⟨ws2._currentThread, hc2⟩).currentSP
        = (w.cpu.rsp + WORD - 6 * 8) % WORD ∧
      (ws2._threads ⟨ws2._currentThread, hc2⟩).willReturnFromYield = 1 := by
    rw [hself, hws2]
    constructor
    · rw [scheduled_sp]; exact hparked2.2.1
    · rw [scheduled_only_state]; exact hparked2.2.2
  obtain ⟨hcpu, hres⟩ := switched_resume ws2 ⟨w2._currentThread, hp2⟩ ⟨ws2._currentThread, hc2⟩
    hne (by rw [hrec.2]; decide)
  have hmem3 : w3.mem = pushAll ws2.cpu ws2.mem := by rw [hw3, switched_mem]
  refine ⟨⟨hp, hsp1⟩, ?_, by rw [hr3, hres]⟩
  rw [hw3, hcpu, hrec.1, ← hmem3, popAll_congr _ _ _ hstack, hmem1]
  exact popAll_pushAll w.cpu hv w.mem

/-- The witness of `test_registers.c`: `t1` yields with `rbx = 42`, `r12 = 43`,
`r13 = 44`, `r14 = 45`, `r15 = 46`, the host overwrites the registers, and `t1`
resumes with its values. -/
theorem yield_restores_registers_witness :
    (regsWorld.cpu
        = { rsp := 12200, rbp := 12264, rbx := 42, r12 := 43, r13 := 44, r14 := 45, r15 := 46 } ∧
      regsWorld2.cpu
        = { rsp := 65000, rbp := 0, rbx := 1, r12 := 2, r13 := 3, r14 := 4, r15 := 5 }) ∧
    (∃ hp : regsWorld._currentThread < MAX_THREADS,
      (regsWorld1._threads ⟨regsWorld._currentThread, hp⟩).currentSP
        = (regsWorld.cpu.rsp + WORD - 6 * 8) % WORD) ∧
    regsWorld3.cpu = regsWorld.cpu ∧ Resume.epilog = Resume.epilog :=
  ⟨by decide,
   yield_restores_registers regsWorld regsWorld1 regsWorld2 regsWorld3 .epilog .epilog regsActs
    (by decide) rfl (by decide) rfl rfl (by decide) (by decide)⟩

/-! ### `startThread`: what a successful call changes and what it writes -/

theorem startThread_result (p f b : Nat) (w : World) :
    startThread p f b w = (-1, w) ∨
      ∃ k : Fin MAX_THREADS, f ≠ 0 ∧ b ≠ 0 ∧ (w._threads k).state = STATE_UNUSED ∧
        (∀ j : Fin MAX_THREADS, j.val < k.val → (w._threads j).state ≠ STATE_UNUSED) ∧
        startThread p f b w = ((k.val : Int), startedAt p f b w k) := by
  by_cases hf : f = 0
  · subst hf; exact Or.inl (startThread_null p b w)
  by_cases hb : b = 0
  · subst hb; exact Or.inl (startThread_nomem p f w)
  by_cases hex : ∃ n, ∃ h : n < MAX_THREADS, (w._threads ⟨n, h⟩).state = STATE_UNUSED
  · obtain ⟨hk, hu⟩ := Nat.find_spec hex
    have hlow : ∀ j : Fin MAX_THREADS, j.val < Nat.find hex →
        (w._threads j).state ≠ STATE_UNUSED :=
      fun j hj hju => Nat.find_min hex hj ⟨j.isLt, hju⟩
    exact Or.inr ⟨⟨Nat.find hex, hk⟩, hf, hb, hu, hlow,
      startThread_lowest p f b hf hb w ⟨Nat.find hex, hk⟩ hu hlow⟩
  · exact Or.inl (startThread_full p f b w (fun j hj => hex ⟨j.val, j.isLt, hj⟩))

theorem startThread_success (p f b : Nat) (w w1 : World) (r : Int)
    (h : startThread p f b w = (r, w1)) (hr : r ≠ -1) :
    ∃ k : Fin MAX_THREADS, r = (k.val : Int) ∧ w1 = startedAt p f b w k ∧ f ≠ 0 ∧ b ≠ 0 ∧
      (w._threads k).state = STATE_UNUSED ∧
      ∀ j : Fin MAX_THREADS, j.val < k.val → (w._threads j).state ≠ STATE_UNUSED := by
  rcases startThread_result p f b w with he | ⟨k, hf, hb, hu, hlow, he⟩
  · rw [he] at h
    exact absurd (congrArg Prod.fst h).symm hr
  · rw [he] at h
    exact ⟨k, (congrArg Prod.fst h).symm, (congrArg Prod.snd h).symm, hf, hb, hu, hlow⟩

theorem startedAt_threads_same (p f b : Nat) (w : World) (k : Fin MAX_THREADS) :
    (startedAt p f b w k)._threads k =
      { w._threads k with
        currentSP := b + STACK_SIZE - 8 * 8
        state := STATE_READY
        willReturnFromYield := 0 } := by
  simp [startedAt]

theorem startedAt_threads_of_ne (p f b : Nat) (w : World) (k j : Fin MAX_THREADS) (h : j ≠ k) :
    (startedAt p f b w k)._threads j = w._threads j := by
  simp [startedAt, Function.update_noteq h]

/-- C16: a successful `startThread(func)` returns the index `i` of the
lowest-indexed `STATE_UNUSED` slot and changes record `i` only: it becomes
`STATE_READY` with `willReturnFromYield` cleared and `currentSP` at the
bootstrapped stack top (`stackBase + 4096 - 64`), its `threadId` left as it
was.  Every other record, the running one included, `_currentThread` and the
registers are unchanged. -/
theorem startThread_frame (p f b : Nat) (w w1 : World) (r : Int)
    (h : startThread p f b w = (r, w1)) (hr : r ≠ -1) :
    ∃ i : Fin MAX_THREADS, r = (i.val : Int) ∧
      (w._threads i).state = STATE_UNUSED ∧
      (∀ j : Fin MAX_THREADS, j.val < i.val → (w._threads j).state ≠ STATE_UNUSED) ∧
      w1._threads i =
        { state := STATE_READY
          threadId := (w._threads i).threadId
          currentSP := b + STACK_SIZE - 8 * 8
          willReturnFromYield := 0 } ∧
      (∀ j : Fin MAX_THREADS, j ≠ i → w1._threads j = w._threads j) ∧
      w1._currentThread = w._currentThread ∧ w1.cpu = w.cpu := by
  obtain ⟨k, hrk, hw1, _, _, hu, hlow⟩ := startThread_success p f b w w1 r h hr
  subst hw1
  exact ⟨k, hrk, hu, hlow, startedAt_threads_same p f b w k,
    fun j hj => startedAt_threads_of_ne p f b w k j hj, rfl, rfl⟩

theorem startThread_frame_witness :
    ∃ i : Fin MAX_THREADS, (2 : Int) = (i.val : Int) ∧
      (sampleStart._threads i).state = STATE_UNUSED ∧
      (∀ j : Fin MAX_THREADS, j.val < i.val → (sampleStart._threads j).state ≠ STATE_UNUSED) ∧
      (startThread 64 256 16384 sampleStart).2._threads i =
        { state := STATE_READY
          threadId := (sampleStart._threads i).threadId
          currentSP := 16384 + STACK_SIZE - 8 * 8
          willReturnFromYield := 0 } ∧
      (∀ j : Fin MAX_THREADS, j ≠ i →
        (startThread 64 256 16384 sampleStart).2._threads j = sampleStart._threads j) ∧
      (startThread 64 256 16384 sampleStart).2._currentThread = sampleStart._currentThread ∧
      (startThread 64 256 16384 sampleStart).2.cpu = sampleStart.cpu :=
  startThread_frame 64 256 16384 sampleStart (startThread 64 256 16384 sampleStart).2 2
    rfl (by decide)

theorem startedAt_mem (p f b : Nat) (w : World) (k : Fin MAX_THREADS) :
    (startedAt p f b w k).mem
      = storeQ (storeQ w.mem (b + STACK_SIZE - 1 * 8) p) (b + STACK_SIZE - 2 * 8) f := by
  unfold startedAt
  simp only []

theorem startedAt_func_word (p f b : Nat) (hf : f < WORD) (w : World) (k : Fin MAX_THREADS) :
    loadQ (startedAt p f b w k).mem (b + STACK_SIZE - 8 * 8 + 48) = f := by
  rw [startedAt_mem, show b + STACK_SIZE - 8 * 8 + 48 = b + STACK_SIZE - 2 * 8 by
    unfold STACK_SIZE; omega]
  exact loadQ_storeQ_same _ _ _ hf

theorem startedAt_park_word (p f b : Nat) (hp : p < WORD) (w : World) (k : Fin MAX_THREADS) :
    loadQ (startedAt p f b w k).mem (b + STACK_SIZE - 8 * 8 + 56) = p := by
  rw [startedAt_mem, show b + STACK_SIZE - 8 * 8 + 56 = b + STACK_SIZE - 1 * 8 by
    unfold STACK_SIZE; omega,
    loadQ_storeQ_other _ _ _ _ (by unfold STACK_SIZE WORD; omega)]
  exact loadQ_storeQ_same _ _ _ hp

theorem startedAt_register_slots (p f b : Nat) (w : World) (k : Fin MAX_THREADS) :
    SameBytes (startedAt p f b w k).mem w.mem (b + STACK_SIZE - 8 * 8) 48 := by
  intro i hi
  rw [startedAt_mem,
    loadB_storeQ_other _ _ _ _ _ (by unfold STACK_SIZE WORD; omega),
    loadB_storeQ_other _ _ _ _ _ (by unfold STACK_SIZE WORD; omega)]

/-- C11: after a successful `startThread(func)` on the block of 4096 bytes at
`stackBase`, the saved stack pointer `sp` of the new thread is
`stackBase + 4096 - 64`, the lowest of eight quadwords that all lie in the
block; the six quadwords at `sp + 0 .. sp + 40`, the register slots, are not
written; the quadword at `sp + 48` holds `func`; and the quadword at `sp + 56`,
the highest of the block, holds the address of `_parkThread`. -/
theorem startThread_stack_layout (p f b : Nat) (w w1 : World) (r : Int)
    (h : startThread p f b w = (r, w1)) (hr : r ≠ -1) (hf : f < WORD) (hp : p < WORD) :
    ∃ i : Fin MAX_THREADS, r = (i.val : Int) ∧
      (w1._threads i).currentSP = b + STACK_SIZE - 64 ∧
      b ≤ (w1._threads i).currentSP ∧
      (w1._threads i).currentSP + 8 * 8 = b + STACK_SIZE ∧
      SameBytes w1.mem w.mem (w1._threads i).currentSP 48 ∧
      loadQ w1.mem ((w1._threads i).currentSP + 48) = f ∧
      loadQ w1.mem ((w1._threads i).currentSP + 56) = p ∧
      (w1._threads i).currentSP + 56 + 8 = b + STACK_SIZE := by
  obtain ⟨k, hrk, hw1, _, _, _, _⟩ := startThread_success p f b w w1 r h hr
  subst hw1
  have hsp : ((startedAt p f b w k)._threads k).currentSP = b + STACK_SIZE - 8 * 8 := by
    rw [startedAt_threads_same]
  refine ⟨k, hrk, hsp, ?_, ?_, ?_, ?_, ?_, ?_⟩
  · rw [hsp]; unfold STACK_SIZE; omega
  · rw [hsp]; unfold STACK_SIZE; omega
  · rw [hsp]; exact startedAt_register_slots p f b w k
  · rw [hsp]; exact startedAt_func_word p f b hf w k
  · rw [hsp]; exact startedAt_park_word p f b hp w k
  · rw [hsp]; unfold STACK_SIZE; omega

theorem startThread_stack_layout_witness :
    ∃ i : Fin MAX_THREADS, (1 : Int) = (i.val : Int) ∧
      (sampleStart._threads i).currentSP = 8192 + STACK_SIZE - 64 ∧
      8192 ≤ (sampleStart._threads i).currentSP ∧
      (sampleStart._threads i).currentSP + 8 * 8 = 8192 + STACK_SIZE ∧
      SameBytes sampleStart.mem (initThreads junkWorld).mem (sampleStart._threads i).currentSP 48 ∧
      loadQ sampleStart.mem ((sampleStart._threads i).currentSP + 48) = 128 ∧
      loadQ sampleStart.mem ((sampleStart._threads i).currentSP + 56) = 64 ∧
      (sampleStart._threads i).currentSP + 56 + 8 = 8192 + STACK_SIZE :=
  startThread_stack_layout 64 128 8192 (initThreads junkWorld) sampleStart 1 rfl
    (by decide) (by decide) (by decide)

/-! ### Slots in use stay in use; the slots in use are a prefix -/

theorem scheduled_state_ne_unused (w : World) (cur sel j : Fin MAX_THREADS)
    (h : (w._threads j).state ≠ STATE_UNUSED) :
    ((scheduled w cur sel)._threads j).state ≠ STATE_UNUSED := by
  by_cases hs : j = sel
  · subst hs; rw [scheduled_threads_sel]; simp
  · rw [scheduled_threads_of_ne _ _ _ _ hs]
    by_cases hc : j = cur
    · subst hc; rw [markReady_cur]; simp
    · rw [markReady_of_ne _ _ _ hc]; exact h

theorem step_state_ne_unused (w w1 : World) (a : Action) (hs : step a w = some w1)
    (j : Fin MAX_THREADS) (h : (w._threads j).state ≠ STATE_UNUSED) :
    (w1._threads j).state ≠ STATE_UNUSED := by
  cases a with
  | start p f b =>
    simp only [step, Option.some.injEq] at hs
    subst hs
    rcases startThread_cases p f b w with he | ⟨k, hk, he⟩
    · rw [he]; exact h
    · rw [he]
      have hne : j ≠ k := fun hh => h (hh ▸ hk)
      rw [startedAt_threads_of_ne _ _ _ _ _ _ hne]
      exact h
  | schedule =>
    simp only [step] at hs
    cases hsch : _scheduleNextThread w with
    | error e => rw [hsch] at hs; simp [Except.toOption] at hs
    | ok ws =>
      rw [hsch] at hs
      simp only [Except.toOption, Option.some.injEq] at hs
      subst hs
      obtain ⟨hc, sel, rfl⟩ := scheduleNextThread_ok w _ hsch
      exact scheduled_state_ne_unused w _ sel j h
  | yield =>
    simp only [step] at hs
    cases hy : yield w with
    | error e => rw [hy] at hs; simp [Except.toOption] at hs
    | ok res =>
      obtain ⟨w2, r⟩ := res
      rw [hy] at hs
      simp only [Except.toOption, Option.map_some', Option.some.injEq] at hs
      subst hs
      obtain ⟨ws, hp, hc2, hsch, _, _, _, heq⟩ := yield_ok w w2 r hy
      obtain ⟨hc, sel, rfl⟩ := scheduleNextThread_ok w _ hsch
      have hw2 : w2 = (switched _ ⟨w._currentThread, hp⟩ _).1 := congrArg Prod.fst heq
      rw [hw2, switched_state]
      exact scheduled_state_ne_unused w _ sel j h
  | run c m =>
    simp only [step, Option.some.injEq] at hs
    subst hs
    exact h

theorem live_iff (t : Thread) :
    (t.state = STATE_READY ∨ t.state = STATE_RUNNING) ↔ t.state ≠ STATE_UNUSED := by
  cases t.state <;> simp

/-- C15: no slot returns to `STATE_UNUSED`.  In any world, any sequence of
`startThread` calls, scheduling steps, `yield` calls and computation (a single
step in particular) leaves every slot that was `STATE_READY` or
`STATE_RUNNING` before it `STATE_READY` or `STATE_RUNNING`; so along an
execution from `initThreads` the set of slots in use only grows. -/
theorem never_unused_again (w w1 : World) (acts : List Action) (h : exec acts w = some w1)
    (j : Fin MAX_THREADS)
    (hj : (w._threads j).state = STATE_READY ∨ (w._threads j).state = STATE_RUNNING) :
    (w1._threads j).state = STATE_READY ∨ (w1._threads j).state = STATE_RUNNING := by
  rw [live_iff] at hj ⊢
  induction acts generalizing w with
  | nil =>
    simp only [exec, Option.some.injEq] at h
    subst h
    exact hj
  | cons a rest ih =>
    simp only [exec] at h
    cases hst : step a w with
    | none => rw [hst] at h; simp at h
    | some w2 =>
      rw [hst] at h
      simp only [Option.some_bind] at h
      exact ih w2 h (step_state_ne_unused w w2 a hst j hj)

theorem never_unused_again_witness :
    ((sampleWorld._threads 2).state = STATE_READY ∨
      (sampleWorld._threads 2).state = STATE_RUNNING) ∧
    ((sampleWorld._threads 0).state = STATE_READY ∨
      (sampleWorld._threads 0).state = STATE_RUNNING) :=
  ⟨never_unused_again (startThread 64 256 16384 sampleStart).2 sampleWorld
      [.yield,
       .run { rsp := 12000, rbp := 2, rbx := 3, r12 := 4, r13 := 5, r14 := 6, r15 := 7 }
         (fun _ => 9),
       .yield, .schedule] rfl 2 (by decide),
   never_unused_again (initThreads junkWorld) sampleWorld sampleActs rfl 0 (by decide)⟩

/-- C17: the slots in use form a prefix.  In every state reached from
`initThreads` by `startThread` calls, scheduling steps, `yield` calls and
computation there is an `n` in `1 .. 10` such that slots `0 .. n-1` are
`STATE_READY` or `STATE_RUNNING` and slots `n .. 9` are `STATE_UNUSED`. -/
theorem occupied_prefix (w0 w : World) (acts : List Action)
    (h : exec acts (initThreads w0) = some w) :
    ∃ n, 1 ≤ n ∧ n ≤ MAX_THREADS ∧
      (∀ j : Fin MAX_THREADS, j.val < n →
        (w._threads j).state = STATE_READY ∨ (w._threads j).state = STATE_RUNNING) ∧
      (∀ j : Fin MAX_THREADS, n ≤ j.val → (w._threads j).state = STATE_UNUSED) := by
  obtain ⟨n, hn⟩ := reachable_inv w0 w acts h
  refine ⟨n, hn.pos, hn.le, fun j hj => ?_, fun j hj => (hn.occ j).2 hj⟩
  rw [live_iff]
  intro hu
  have := (hn.occ j).1 hu
  omega

theorem occupied_prefix_witness :
    ∃ n, 1 ≤ n ∧ n ≤ MAX_THREADS ∧
      (∀ j : Fin MAX_THREADS, j.val < n →
        (sampleWorld._threads j).state = STATE_READY ∨
        (sampleWorld._threads j).state = STATE_RUNNING) ∧
      (∀ j : Fin MAX_THREADS, n ≤ j.val → (sampleWorld._threads j).state = STATE_UNUSED) :=
  occupied_prefix junkWorld sampleWorld sampleActs rfl

/-- C18: with every `yield` recording a non-null stack pointer for the thread
it suspends, in every state reached from `initThreads` by `startThread` calls,
`yield` calls and computation every `STATE_READY` record has a non-null
`currentSP`; and once a thread besides the host exists, the scheduler selects
another thread than the current one, whose `currentSP` is therefore not
`NULL` when `yield` asserts it. -/
theorem ready_have_stacks (w0 w : World) (acts : List Action)
    (hrun : AlwaysAt yieldRun acts (initThreads w0))
    (h : exec acts (initThreads w0) = some w) (hlive : 2 ≤ liveCount w) :
    (∀ j : Fin MAX_THREADS, (w._threads j).state = STATE_READY →
      (w._threads j).currentSP ≠ 0) ∧
    ∃ (ws : World) (hc : ws._currentThread < MAX_THREADS),
      _scheduleNextThread w = .ok ws ∧
      ws._currentThread ≠ w._currentThread ∧
      (w._threads ⟨ws._currentThread, hc⟩).state = STATE_READY ∧
      (ws._threads ⟨ws._currentThread, hc⟩).currentSP ≠ 0 := by
  obtain ⟨n, _, hn⟩ := inv_exec (Inv.init w0) acts h
  have hsp := yieldRun_exec (Inv.init w0) (ReadyHaveStacks.init_stacks w0) acts hrun h
  rw [hn.liveCount_eq] at hlive
  have hready := hn.ready_of_ne ⟨(w._currentThread + 1) % n, hn.next_lt⟩
    (Nat.mod_lt _ hn.pos) (hn.next_ne hlive)
  refine ⟨hsp, _, hn.next_lt, hn.schedule_eq, hn.next_ne hlive, hready, ?_⟩
  rw [scheduled_sp]
  exact hsp _ hready

theorem ready_have_stacks_witness :
    (∀ j : Fin MAX_THREADS, (yieldWorld._threads j).state = STATE_READY →
      (yieldWorld._threads j).currentSP ≠ 0) ∧
    ∃ (ws : World) (hc : ws._currentThread < MAX_THREADS),
      _scheduleNextThread yieldWorld = .ok ws ∧
      ws._currentThread ≠ yieldWorld._currentThread ∧
      (yieldWorld._threads ⟨ws._currentThread, hc⟩).state = STATE_READY ∧
      (ws._threads ⟨ws._currentThread, hc⟩).currentSP ≠ 0 :=
  ready_have_stacks junkWorld yieldWorld yieldActs (by decide) rfl (by decide)

/-! ### The field `threadId` is never assigned after `initThreads` -/

theorem scheduled_threadId (w : World) (cur sel j : Fin MAX_THREADS) :
    ((scheduled w cur sel)._threads j).threadId = (w._threads j).threadId := by
  rw [scheduled_only_state]

theorem switched_threadId (ws : World) (prev cur j : Fin MAX_THREADS) :
    ((switched ws prev cur).1._threads j).threadId = (ws._threads j).threadId := by
  by_cases hj : j = prev
  · subst hj; simp [switched]
  · rw [switched_of_ne _ _ _ _ hj]

theorem step_threadId (w w1 : World) (a : Action) (hs : step a w = some w1)
    (j : Fin MAX_THREADS) : (w1._threads j).threadId = (w._threads j).threadId := by
  cases a with
  | start p f b =>
    simp only [step, Option.some.injEq] at hs
    subst hs
    rcases startThread_cases p f b w with he | ⟨k, _, he⟩
    · rw [he]
    · rw [he]
      by_cases hjk : j = k
      · subst hjk; rw [startedAt_threads_same]
      · rw [startedAt_threads_of_ne _ _ _ _ _ _ hjk]
  | schedule =>
    simp only [step] at hs
    cases hsch : _scheduleNextThread w with
    | error e => rw [hsch] at hs; simp [Except.toOption] at hs
    | ok ws =>
      rw [hsch] at hs
      simp only [Except.toOption, Option.some.injEq] at hs
      subst hs
      obtain ⟨hc, sel, rfl⟩ := scheduleNextThread_ok w _ hsch
      exact scheduled_threadId w _ sel j
  | yield =>
    simp only [step] at hs
    cases hy : yield w with
    | error e => rw [hy] at hs; simp [Except.toOption] at hs
    | ok res =>
      obtain ⟨w2, r⟩ := res
      rw [hy] at hs
      simp only [Except.toOption, Option.map_some', Option.some.injEq] at hs
      subst hs
      obtain ⟨ws, hp, hc2, hsch, _, _, _, heq⟩ := yield_ok w w2 r hy
      obtain ⟨hc, sel, rfl⟩ := scheduleNextThread_ok w _ hsch
      have hw2 : w2 = (switched _ ⟨w._currentThread, hp⟩ _).1 := congrArg Prod.fst heq
      rw [hw2, switched_threadId, scheduled_threadId]
  | run c m =>
    simp only [step, Option.some.injEq] at hs
    subst hs
    rfl

theorem exec_threadId (w w1 : World) (acts : List Action) (h : exec acts w = some w1)
    (j : Fin MAX_THREADS) : (w1._threads j).threadId = (w._threads j).threadId := by
  induction acts generalizing w with
  | nil =>
    simp only [exec, Option.some.injEq] at h
    subst h
    rfl
  | cons a rest ih =>
    simp only [exec] at h
    cases hst : step a w with
    | none => rw [hst] at h; simp at h
    | some w2 =>
      rw [hst] at h
      simp only [Option.some_bind] at h
      rw [ih w2 h, step_threadId w w2 a hst j]

/-- No call ever assigns `threadId` after `initThreads`: in every state reached
from `initThreads` every record has `threadId = 0`. -/
theorem threadId_zero (w0 w : World) (acts : List Action)
    (h : exec acts (initThreads w0) = some w) (j : Fin MAX_THREADS) :
    (w._threads j).threadId = 0 := by
  rw [exec_threadId _ _ acts h j]
  by_cases hj : j = 0
  · subst hj; rw [initThreads_threads_zero]
  · rw [initThreads_threads_succ w0 j hj]; rfl

/-- C14 fails on the code: after `initThreads` and one `startThread(func)` the
record in slot 1 is `STATE_READY` and its `threadId` is 0, not 1. -/
theorem threadId_not_index :
    (startThread 64 128 8192 (initThreads junkWorld)).1 = 1 ∧
    ((startThread 64 128 8192 (initThreads junkWorld)).2._threads 1).state = STATE_READY ∧
    ((startThread 64 128 8192 (initThreads junkWorld)).2._threads 1).threadId = 0 ∧
    ((startThread 64 128 8192 (initThreads junkWorld)).2._threads 1).threadId
      ≠ ((1 : Fin MAX_THREADS).val : Int) := by
  decide

/-! ### First entry into a created thread -/

theorem contextSwitch_first (c : Cpu) (mem : Memory) (sp : Nat) :
    (contextSwitch c mem sp 0).2.1
      = { popAll (pushAll c mem) sp with rsp := (sp + 56) % WORD } ∧
    (contextSwitch c mem sp 0).2.2.2 = .retq (loadQ (pushAll c mem) ((sp + 48) % WORD)) := by
  have h1 := sub_chain c.rsp 8 16 rfl (by decide)
  have h2 := sub_chain c.rsp 16 24 rfl (by decide)
  have h3 := sub_chain c.rsp 24 32 rfl (by decide)
  have h4 := sub_chain c.rsp 32 40 rfl (by decide)
  have h5 := sub_chain c.rsp 40 48 rfl (by decide)
  have g1 := add_chain sp 8 16 rfl
  have g2 := add_chain sp 16 24 rfl
  have g3 := add_chain sp 24 32 rfl
  have g4 := add_chain sp 32 40 rfl
  have g5 := add_chain sp 40 48 rfl
  have g6 := add_chain sp 48 56 rfl
  unfold contextSwitch pushAll popAll pushq popq
  simp only [h1, h2, h3, h4, h5, g1, g2, g3, g4, g5, g6, ne_eq, not_true_eq_false, if_false,
    and_self]

theorem switched_first (ws : World) (prev cur : Fin MAX_THREADS) (hne : cur ≠ prev)
    (hflag : (ws._threads cur).willReturnFromYield = 0) :
    (switched ws prev cur).1.cpu
      = { popAll (pushAll ws.cpu ws.mem) (ws._threads cur).currentSP with
          rsp := ((ws._threads cur).currentSP + 56) % WORD } ∧
    (switched ws prev cur).2
      = .retq (loadQ (pushAll ws.cpu ws.mem) (((ws._threads cur).currentSP + 48) % WORD)) := by
  simp only [switched, Function.update_noteq hne, hflag]
  exact contextSwitch_first _ _ _

theorem loadQ_of_sameBytes (m m1 : Memory) (a len k : Nat) (hk : k + 8 ≤ len)
    (h : SameBytes m m1 a len) : loadQ m ((a + k) % WORD) = loadQ m1 (a + k) := by
  have hs : ∀ i, loadB m1 (a + k) i = loadB m1 a (k + i) := fun i => by
    unfold loadB; rw [Nat.add_assoc]
  unfold loadQ
  simp only [loadB_shift, hs]
  rw [h (k + 0) (by omega), h (k + 1) (by omega), h (k + 2) (by omega), h (k + 3) (by omega),
    h (k + 4) (by omega), h (k + 5) (by omega), h (k + 6) (by omega), h (k + 7) (by omega)]

theorem Kept.step_kept {self : Fin MAX_THREADS} {sp : Nat} {flag : Int} {w w1 : World}
    (h : Kept self sp flag w) (a : Action) (hcur : w._currentThread ≠ self.val)
    (hs : step a w = some w1) : Kept self sp flag w1 := by
  refine ⟨step_state_ne_unused w w1 a hs self h.1, ?_⟩
  cases a with
  | start p f b =>
    simp only [step, Option.some.injEq] at hs
    subst hs
    rcases startThread_cases p f b w with he | ⟨k, hk, he⟩
    · rw [he]; exact h.2
    · rw [he]
      have hne : self ≠ k := fun hh => h.1 (hh ▸ hk)
      rw [startedAt_threads_of_ne _ _ _ _ _ _ hne]
      exact h.2
  | schedule =>
    simp only [step] at hs
    cases hsch : _scheduleNextThread w with
    | error e => rw [hsch] at hs; simp [Except.toOption] at hs
    | ok ws =>
      rw [hsch] at hs
      simp only [Except.toOption, Option.some.injEq] at hs
      subst hs
      obtain ⟨hc, sel, rfl⟩ := scheduleNextThread_ok w _ hsch
      rw [scheduled_only_state]
      exact h.2
  | yield =>
    simp only [step] at hs
    cases hy : yield w with
    | error e => rw [hy] at hs; simp [Except.toOption] at hs
    | ok res =>
      obtain ⟨w2, r⟩ := res
      rw [hy] at hs
      simp only [Except.toOption, Option.map_some', Option.some.injEq] at hs
      subst hs
      obtain ⟨ws, hp, hc2, hsch, _, _, _, heq⟩ := yield_ok w w2 r hy
      obtain ⟨hc, sel, rfl⟩ := scheduleNextThread_ok w _ hsch
      have hne : self ≠ ⟨w._currentThread, hc⟩ := fun hh => hcur (congrArg Fin.val hh).symm
      have hw2 : w2 = (switched _ ⟨w._currentThread, hp⟩ _).1 := congrArg Prod.fst heq
      rw [hw2, switched_of_ne _ _ _ _ hne, scheduled_only_state]
      exact h.2
  | run c m =>
    simp only [step, Option.some.injEq] at hs
    subst hs
    exact h.2

theorem Kept.exec_kept {self : Fin MAX_THREADS} {sp : Nat} {flag : Int} {w w1 : World}
    (h : Kept self sp flag w) (acts : List Action) (ha : AlwaysAt (Suspended self.val) acts w)
    (hs : exec acts w = some w1) : Kept self sp flag w1 := by
  induction acts generalizing w with
  | nil =>
    simp only [exec, Option.some.injEq] at hs
    subst hs
    exact h
  | cons a rest ih =>
    simp only [exec] at hs
    cases hst : step a w with
    | none => rw [hst] at hs; simp at hs
    | some w2 =>
      rw [hst] at hs
      simp only [Option.some_bind] at hs
      have ha2 : AlwaysAt (Suspended self.val) rest w2 := by
        have := ha.2
        rw [hst] at this
        exact this
      exact ih (h.step_kept a ha.1 hst) ha2 hs

/-- C12, amended: first entry.  `startThread(func)` creates thread `i` on the
block at `stackBase`; the other threads then act in any way without thread `i`
running, and a `yield` selects thread `i`.  Provided the two quadwords at the
top of the block are then as `startThread` left them, the switch leaves through
the first-entry path: after the six `popq` its `retq` transfers control to
`func`, with `rsp` at the last quadword of the block, which holds the address
of `_parkThread`, so that a return from `func` transfers control to
`_parkThread`. -/
theorem first_entry (p f b i : Nat) (w w1 w2 w3 : World) (r3 : Resume) (acts : List Action)
    (hstart : startThread p f b w = ((i : Int), w1)) (hf : f < WORD) (hp : p < WORD)
    (hnew : AlwaysAt (Suspended i) acts w1)
    (hex : exec acts w1 = some w2)
    (hy : yield w2 = .ok (w3, r3))
    (hin : w3._currentThread = i)
    (hstack : SameBytes w3.mem w1.mem (b + STACK_SIZE - 2 * 8) 16) :
    r3 = .retq f ∧ w3.cpu.rsp = (b + STACK_SIZE - 1 * 8) % WORD ∧
      loadQ w3.mem w3.cpu.rsp = p := by
  obtain ⟨k, hik, hw1, _, _, _, _⟩ :=
    startThread_success p f b w w1 (i : Int) hstart (by omega)
  have hki : k.val = i := by exact_mod_cast hik.symm
  subst hw1
  have hkept : Kept k (b + STACK_SIZE - 8 * 8) 0 (startedAt p f b w k) := by
    refine ⟨?_, ?_, ?_⟩
    · rw [startedAt_threads_same]; simp
    · rw [startedAt_threads_same]
    · rw [startedAt_threads_same]
  have hkept2 := hkept.exec_kept acts (hki ▸ hnew) hex
  obtain ⟨ws2, hp2, hc2, hsch2, hready2, hrun2, _, heq2⟩ := yield_ok w2 w3 r3 hy
  have hw3 : w3 = (switched ws2 ⟨w2._currentThread, hp2⟩ ⟨ws2._currentThread, hc2⟩).1 :=
    congrArg Prod.fst heq2
  have hr3 : r3 = (switched ws2 ⟨w2._currentThread, hp2⟩ ⟨ws2._currentThread, hc2⟩).2 :=
    congrArg Prod.snd heq2
  have hcur : ws2._currentThread = k.val := by
    rw [hki, ← hin, hw3, switched_current]
  have hself : (⟨ws2._currentThread, hc2⟩ : Fin MAX_THREADS) = k := Fin.ext hcur
  have hne : (⟨ws2._currentThread, hc2⟩ : Fin MAX_THREADS) ≠ ⟨w2._currentThread, hp2⟩ := by
    intro hh
    rw [hh, hready2] at hrun2
    cases hrun2
  obtain ⟨hc3, sel2, hws2⟩ := scheduleNextThread_ok w2 _ hsch2
  have hrec : (ws2._threads ⟨ws2._currentThread, hc2⟩).currentSP = b + STACK_SIZE - 8 * 8 ∧
      (ws2._threads ⟨ws2._currentThread, hc2⟩).willReturnFromYield = 0 := by
    rw [hself, hws2]
    constructor
    · rw [scheduled_sp]; exact hkept2.2.1
    · rw [scheduled_only_state]; exact hkept2.2.2
  obtain ⟨hcpu, hres⟩ := switched_first ws2 ⟨w2._currentThread, hp2⟩ ⟨ws2._currentThread, hc2⟩
    hne hrec.2
  have hmem3 : w3.mem = pushAll ws2.cpu ws2.mem := by rw [hw3, switched_mem]
  have ha48 : (b + STACK_SIZE - 8 * 8 + 48) % WORD = (b + STACK_SIZE - 2 * 8 + 0) % WORD :=
    congrArg (fun a => a % WORD) (by unfold STACK_SIZE; omega)
  have ha56 : (b + STACK_SIZE - 8 * 8 + 56) % WORD = (b + STACK_SIZE - 2 * 8 + 8) % WORD :=
    congrArg (fun a => a % WORD) (by unfold STACK_SIZE; omega)
  have hfw : loadQ w3.mem ((b + STACK_SIZE - 8 * 8 + 48) % WORD) = f := by
    rw [ha48, loadQ_of_sameBytes _ _ _ 16 0 (by decide) hstack,
      show b + STACK_SIZE - 2 * 8 + 0 = b + STACK_SIZE - 8 * 8 + 48 by unfold STACK_SIZE; omega]
    exact startedAt_func_word p f b hf w k
  have hpw : loadQ w3.mem ((b + STACK_SIZE - 8 * 8 + 56) % WORD) = p := by
    rw [ha56, loadQ_of_sameBytes _ _ _ 16 8 (by decide) hstack,
      show b + STACK_SIZE - 2 * 8 + 8 = b + STACK_SIZE - 8 * 8 + 56 by unfold STACK_SIZE; omega]
    exact startedAt_park_word p f b hp w k
  have hrsp : w3.cpu.rsp = (b + STACK_SIZE - 8 * 8 + 56) % WORD := by
    rw [hw3, hcpu, hrec.1]
  refine ⟨?_, ?_, ?_⟩
  · rw [hr3, hres, hrec.1, ← hmem3, hfw]
  · rw [hrsp]
    exact congrArg (fun a => a % WORD) (by unfold STACK_SIZE; omega)
  · rw [hrsp]; exact hpw

/-- The first switch of `test_registers.c`: the host yields and thread 1 is
entered at its function, here at address 128, with `_parkThread`, here at
address 64, as the return address. -/
theorem first_entry_witness :
    Resume.retq 128 = Resume.retq 128 ∧ entryWorld1.cpu.rsp = (8192 + STACK_SIZE - 1 * 8) % WORD ∧
      loadQ entryWorld1.mem entryWorld1.cpu.rsp = 64 :=
  first_entry 64 128 8192 1 (initThreads junkWorld) sampleStart entryWorld entryWorld1
    (.retq 128) entryActs rfl (by decide) (by decide) (by decide) rfl rfl (by decide) (by decide)

/-! ### The flag `willReturnFromYield` and the switches of a run -/

theorem scheduleNextThread_ok_ready (w ws : World) (h : _scheduleNextThread w = .ok ws) :
    ∃ (hc : w._currentThread < MAX_THREADS) (sel : Fin MAX_THREADS),
      ws = scheduled w ⟨w._currentThread, hc⟩ sel ∧
      (markReady w ⟨w._currentThread, hc⟩ sel).state = STATE_READY := by
  by_cases hc : w._currentThread < MAX_THREADS
  · by_cases hrun : (w._threads ⟨w._currentThread, hc⟩).state = STATE_RUNNING
    · obtain ⟨d, hd1, hd10, hready, hnot⟩ :=
        exists_next_ready (markReady w ⟨w._currentThread, hc⟩) w._currentThread
          (by rw [slot_of_lt hc]; exact markReady_cur _ _)
      unfold _scheduleNextThread at h
      rw [scheduleNextThreadFuel_eq w hc hrun d hd1 _ hd10 hready hnot] at h
      injection h with h
      exact ⟨hc, _, h.symm, hready⟩
    · unfold _scheduleNextThread scheduleNextThreadFuel at h
      rw [dif_pos hc, if_pos hrun] at h
      cases h
  · unfold _scheduleNextThread scheduleNextThreadFuel at h
    rw [dif_neg hc] at h
    cases h

/-- What a completed `yield` leaves: the outgoing thread `prev`, the incoming
thread `sel`, different from it and ready before. -/
theorem yield_shape (w w1 : World) (r : Resume) (h : yield w = .ok (w1, r)) :
    ∃ (prev sel : Fin MAX_THREADS), prev.val = w._currentThread ∧ sel.val = w1._currentThread ∧
      sel ≠ prev ∧ (w._threads sel).state = STATE_READY ∧
      (w1, r) = switched (scheduled w prev sel) prev sel := by
  obtain ⟨ws, hp, hc2, hsch, hready, hrun, _, heq⟩ := yield_ok w w1 r h
  obtain ⟨hc, sel, rfl, hsel⟩ := scheduleNextThread_ok_ready w _ hsch
  have hne : sel ≠ ⟨w._currentThread, hp⟩ := by
    intro hh
    have h1 : (⟨(scheduled w ⟨w._currentThread, hc⟩ sel)._currentThread, hc2⟩ : Fin MAX_THREADS)
        = ⟨w._currentThread, hp⟩ := Fin.ext (by rw [← hh]; rfl)
    rw [h1, hready] at hrun
    cases hrun
  refine ⟨⟨w._currentThread, hp⟩, sel, rfl, ?_, hne, ?_, ?_⟩
  · have hw1 : w1 = (switched _ ⟨w._currentThread, hp⟩ _).1 := congrArg Prod.fst heq
    rw [hw1, switched_current]; rfl
  · rw [← markReady_of_ne w ⟨w._currentThread, hc⟩ sel hne]; exact hsel
  · exact heq

theorem switched_flag_of_ne (w : World) (prev sel j : Fin MAX_THREADS) (hj : j ≠ prev) :
    ((switched (scheduled w prev sel) prev sel).1._threads j).willReturnFromYield
      = (w._threads j).willReturnFromYield := by
  rw [switched_of_ne _ _ _ _ hj, scheduled_only_state]

theorem switched_state_ne_unused (w : World) (prev sel j : Fin MAX_THREADS)
    (h : (w._threads j).state ≠ STATE_UNUSED) :
    ((switched (scheduled w prev sel) prev sel).1._threads j).state ≠ STATE_UNUSED := by
  rw [switched_state]
  exact scheduled_state_ne_unused w prev sel j h

theorem FlagInv.start_flags {H : List (Nat × Nat)} {w : World} (h : FlagInv H w)
    (p f b : Nat) : FlagInv H (startThread p f b w).2 := by
  rcases startThread_cases p f b w with he | ⟨k, hk, he⟩
  · rw [he]; exact h
  · rw [he]
    have hne : ∀ j : Fin MAX_THREADS, (w._threads j).state ≠ STATE_UNUSED → j ≠ k :=
      fun j hj hh => hj (hh ▸ hk)
    refine ⟨fun j hj => ?_, fun j hj hout => ?_, fun j hj => ?_⟩
    · rw [startedAt_threads_of_ne _ _ _ _ _ _ (hne j (h.out j hj).1)]
      exact h.out j hj
    · by_cases hjk : j = k
      · subst hjk; rw [startedAt_threads_same]
      · rw [startedAt_threads_of_ne _ _ _ _ _ _ hjk] at hj ⊢
        exact h.fresh j hj hout
    · rw [startedAt_threads_of_ne _ _ _ _ _ _ (hne j (h.inc j hj).1)]
      exact h.inc j hj

theorem FlagInv.yield_flags {H : List (Nat × Nat)} {w : World} (h : FlagInv H w)
    (prev sel : Fin MAX_THREADS) (hprev : prev.val = w._currentThread) (hne : sel ≠ prev)
    (hsel : (w._threads sel).state = STATE_READY) :
    FlagInv (H ++ [(prev.val, sel.val)]) (switched (scheduled w prev sel) prev sel).1 := by
  refine ⟨fun j hj => ?_, fun j hj hout => ?_, fun j hj => ?_⟩
  · simp only [List.map_append, List.map_cons, List.map_nil, List.mem_append,
      List.mem_singleton] at hj
    by_cases hjp : j = prev
    · subst hjp
      refine ⟨?_, switched_prev_flag _ _ _⟩
      rw [switched_state, scheduled_threads_of_ne _ _ _ _ (Ne.symm hne), markReady_cur]
      decide
    · have hin : j.val ∈ H.map Prod.fst := hj.resolve_right (fun hh => hjp (Fin.ext hh))
      exact ⟨switched_state_ne_unused w prev sel j (h.out j hin).1,
        (switched_flag_of_ne w prev sel j hjp).trans (h.out j hin).2⟩
  · simp only [List.map_append, List.map_cons, List.map_nil, List.mem_append,
      List.mem_singleton, not_or] at hout
    have hjp : j ≠ prev := fun hh => hout.2 (congrArg Fin.val hh)
    rw [switched_flag_of_ne w prev sel j hjp]
    refine h.fresh j ?_ hout.1
    by_cases hjs : j = sel
    · subst hjs; rw [hsel]; decide
    · rw [switched_state, scheduled_threads_of_ne _ _ _ _ hjs, markReady_of_ne _ _ _ hjp] at hj
      exact hj
  · simp only [List.map_append, List.map_cons, List.map_nil, List.mem_append,
      List.mem_singleton] at hj
    by_cases hjs : j = sel
    · subst hjs
      refine ⟨?_, Or.inl rfl⟩
      rw [switched_state, scheduled_threads_sel]
      simp
    · have hin : j.val ∈ H.map Prod.snd := hj.resolve_right (fun hh => hjs (Fin.ext hh))
      refine ⟨switched_state_ne_unused w prev sel j (h.inc j hin).1, Or.inr ?_⟩
      by_cases hjp : j = prev
      · subst hjp; exact switched_prev_flag _ _ _
      · rw [switched_flag_of_ne w prev sel j hjp]
        exact (h.inc j hin).2.resolve_left (fun hh => hjp (Fin.ext (hh.trans hprev.symm)))

theorem FlagInv.step_flags {H : List (Nat × Nat)} {w w1 : World} (h : FlagInv H w)
    (a : Action) (ha : callsOnly a w) (hs : step a w = some w1) :
    FlagInv (H ++ switchOf a w w1) w1 := by
  cases a with
  | start p f b =>
    simp only [step, Option.some.injEq] at hs
    subst hs
    simp only [switchOf, List.append_nil]
    exact h.start_flags p f b
  | schedule => exact absurd ha (by simp [callsOnly])
  | yield =>
    simp only [step] at hs
    cases hy : yield w with
    | error e => rw [hy] at hs; simp [Except.toOption] at hs
    | ok res =>
      obtain ⟨w2, r⟩ := res
      rw [hy] at hs
      simp only [Except.toOption, Option.map_some', Option.some.injEq] at hs
      subst hs
      obtain ⟨prev, sel, hprev, hselcur, hne, hsel, heq⟩ := yield_shape w w2 r hy
      have hw2 : w2 = (switched (scheduled w prev sel) prev sel).1 := congrArg Prod.fst heq
      simp only [switchOf]
      rw [← hprev, ← hselcur, hw2]
      exact h.yield_flags prev sel hprev hne hsel
  | run c m =>
    simp only [step, Option.some.injEq] at hs
    subst hs
    simp only [switchOf, List.append_nil]
    exact ⟨h.out, h.fresh, h.inc⟩

theorem FlagInv.exec_flags {H : List (Nat × Nat)} {w w1 : World} (h : FlagInv H w)
    (acts : List Action) (ha : AlwaysAt callsOnly acts w) (hs : exec acts w = some w1) :
    FlagInv (H ++ switches acts w) w1 := by
  induction acts generalizing H w with
  | nil =>
    simp only [exec, Option.some.injEq] at hs
    subst hs
    simp only [switches, List.append_nil]
    exact h
  | cons a rest ih =>
    simp only [exec] at hs
    cases hst : step a w with
    | none => rw [hst] at hs; simp at hs
    | some w2 =>
      rw [hst] at hs
      simp only [Option.some_bind] at hs
      have ha2 : AlwaysAt callsOnly rest w2 := by
        have := ha.2
        rw [hst] at this
        exact this
      have := ih (h.step_flags a ha.1 hst) ha2 hs
      unfold switches
      rw [hst]
      simp only
      rw [← List.append_assoc]
      exact this

theorem FlagInv.init_flags (w0 : World) : FlagInv [] (initThreads w0) := by
  refine ⟨fun j hj => ?_, fun j _ _ => ?_, fun j hj => ?_⟩
  · simp at hj
  · by_cases hj : j = 0
    · subst hj; rw [initThreads_threads_zero]
    · rw [initThreads_threads_succ w0 j hj]; rfl
  · simp at hj

theorem yield_retq_flag (w w1 : World) (t : Nat) (h : yield w = .ok (w1, .retq t)) :
    ∃ sel : Fin MAX_THREADS, sel.val = w1._currentThread ∧ sel.val ≠ w._currentThread ∧
      (w._threads sel).willReturnFromYield = 0 := by
  obtain ⟨prev, sel, hprev, hselcur, hne, _, heq⟩ := yield_shape w w1 _ h
  refine ⟨sel, hselcur, fun hh => hne (Fin.ext (hh.trans hprev.symm)), ?_⟩
  by_contra hflag
  have hflag2 : ((scheduled w prev sel)._threads sel).willReturnFromYield ≠ 0 := by
    rw [scheduled_only_state]; exact hflag
  have hres := (switched_resume (scheduled w prev sel) prev sel hne hflag2).2
  rw [← heq] at hres
  cases hres

/-- C13: the resumption-path flag.  In every state reached from `initThreads`
by `startThread` calls, `yield` calls and computation, the flag
`willReturnFromYield` of a record in use is 0 or 1 and is set exactly when the
thread has been the outgoing thread of a completed `yield`.  It is clear in
the record a successful `startThread` fills, and once set it stays set in every
continuation of the run.  A `yield` that leaves through the first-entry path
switches to a thread that no earlier `yield` has switched to or away from. -/
theorem flag_iff_yielded (w0 w : World) (acts : List Action)
    (hcalls : AlwaysAt callsOnly acts (initThreads w0))
    (h : exec acts (initThreads w0) = some w) :
    (∀ j : Fin MAX_THREADS, (w._threads j).state ≠ STATE_UNUSED →
      ((w._threads j).willReturnFromYield ≠ 0 ↔
        j.val ∈ (switches acts (initThreads w0)).map Prod.fst) ∧
      ((w._threads j).willReturnFromYield = 0 ∨ (w._threads j).willReturnFromYield = 1)) ∧
    (∀ (p f b i : Nat) (w1 : World), startThread p f b w = ((i : Int), w1) →
      ∃ hi : i < MAX_THREADS, (w1._threads ⟨i, hi⟩).willReturnFromYield = 0) ∧
    (∀ (acts2 : List Action) (w2 : World), AlwaysAt callsOnly acts2 w →
      exec acts2 w = some w2 → ∀ j : Fin MAX_THREADS, (w._threads j).state ≠ STATE_UNUSED →
        (w._threads j).willReturnFromYield ≠ 0 → (w2._threads j).willReturnFromYield ≠ 0) ∧
    (∀ (w1 : World) (t : Nat), yield w = .ok (w1, .retq t) →
      w1._currentThread ∉ (switches acts (initThreads w0)).map Prod.snd ∧
      w1._currentThread ∉ (switches acts (initThreads w0)).map Prod.fst) := by
  have hinv := (FlagInv.init_flags w0).exec_flags acts hcalls h
  rw [List.nil_append] at hinv
  have hiff : ∀ j : Fin MAX_THREADS, (w._threads j).state ≠ STATE_UNUSED →
      ((w._threads j).willReturnFromYield ≠ 0 ↔
        j.val ∈ (switches acts (initThreads w0)).map Prod.fst) := by
    intro j hj
    constructor
    · intro hflag
      by_contra hout
      exact hflag (hinv.fresh j hj hout)
    · intro hout
      rw [(hinv.out j hout).2]
      decide
  refine ⟨fun j hj => ⟨hiff j hj, ?_⟩, ?_, ?_, ?_⟩
  · by_cases hout : j.val ∈ (switches acts (initThreads w0)).map Prod.fst
    · exact Or.inr (hinv.out j hout).2
    · exact Or.inl (hinv.fresh j hj hout)
  · intro p f b i w1 hstart
    obtain ⟨k, hik, hw1, _, _, _, _⟩ :=
      startThread_success p f b w w1 (i : Int) hstart (by omega)
    have hki : k.val = i := by exact_mod_cast hik.symm
    refine ⟨hki ▸ k.isLt, ?_⟩
    have hk : (⟨i, hki ▸ k.isLt⟩ : Fin MAX_THREADS) = k := Fin.ext hki.symm
    rw [hk, hw1, startedAt_threads_same]
  · intro acts2 w2 hcalls2 hex2 j hj hflag
    have hinv2 := hinv.exec_flags acts2 hcalls2 hex2
    have hout : j.val ∈ ((switches acts (initThreads w0)) ++ switches acts2 w).map Prod.fst := by
      rw [List.map_append]
      exact List.mem_append_left _ ((hiff j hj).1 hflag)
    rw [(hinv2.out j hout).2]
    decide
  · intro w1 t hy
    obtain ⟨sel, hselcur, hne, hflag⟩ := yield_retq_flag w w1 t hy
    rw [← hselcur]
    constructor
    · intro hin
      rcases (hinv.inc sel hin).2 with hc | hf
      · exact hne hc
      · rw [hflag] at hf; cases hf
    · intro hout
      have := (hinv.out sel hout).2
      rw [hflag] at this
      cases this

/-- After the host has created two threads and yielded to the first, the host
has its flag set and the two threads have not; the next `yield` enters thread 2
through the first-entry path, and thread 2 has not been switched to before. -/
theorem flag_iff_yielded_witness :
    (switches flagActs (initThreads junkWorld) = [(0, 1)] ∧
      (flagWorld._threads 0).willReturnFromYield = 1 ∧
      (flagWorld._threads 1).willReturnFromYield = 0 ∧
      (flagWorld._threads 2).willReturnFromYield = 0 ∧
      (yield flagWorld).toOption.map Prod.snd = some (.retq 256)) ∧
    ((∀ j : Fin MAX_THREADS, (flagWorld._threads j).state ≠ STATE_UNUSED →
      ((flagWorld._threads j).willReturnFromYield ≠ 0 ↔
        j.val ∈ (switches flagActs (initThreads junkWorld)).map Prod.fst) ∧
      ((flagWorld._threads j).willReturnFromYield = 0 ∨
        (flagWorld._threads j).willReturnFromYield = 1)) ∧
    (∀ (p f b i : Nat) (w1 : World), startThread p f b flagWorld = ((i : Int), w1) →
      ∃ hi : i < MAX_THREADS, (w1._threads ⟨i, hi⟩).willReturnFromYield = 0) ∧
    (∀ (acts2 : List Action) (w2 : World), AlwaysAt callsOnly acts2 flagWorld →
      exec acts2 flagWorld = some w2 → ∀ j : Fin MAX_THREADS,
        (flagWorld._threads j).state ≠ STATE_UNUSED →
        (flagWorld._threads j).willReturnFromYield ≠ 0 →
        (w2._threads j).willReturnFromYield ≠ 0) ∧
    (∀ (w1 : World) (t : Nat), yield flagWorld = .ok (w1, .retq t) →
      w1._currentThread ∉ (switches flagActs (initThreads junkWorld)).map Prod.snd ∧
      w1._currentThread ∉ (switches flagActs (initThreads junkWorld)).map Prod.fst)) :=
  ⟨by decide, flag_iff_yielded junkWorld flagWorld flagActs (by decide) rfl⟩

/-- C12, as stated, fails: thread 2 is created by `startThread(func)` with
`func = 256` and does not run; thread 1 overwrites the quadword in which
`startThread` stored `func`; the `yield` that then enters thread 2 for the first
time returns through that quadword to address 999, not to `func`. -/
theorem first_entry_counterexample :
    startThread 64 256 12288 (startThread 64 128 16384 (initThreads junkWorld)).2
      = (2, clobberCreated) ∧
    AlwaysAt (Suspended 2) clobberActs clobberCreated ∧
    exec clobberActs clobberCreated = some clobberWorld ∧
    (clobberWorld._threads 2).state = STATE_READY ∧
    (clobberWorld._threads 2).willReturnFromYield = 0 ∧
    yield clobberWorld = .ok (clobberWorld1, .retq 999) ∧
    clobberWorld1._currentThread = 2 ∧
    Resume.retq 999 ≠ Resume.retq 256 := by
  refine ⟨rfl, by decide, rfl, by decide, by decide, rfl, by decide, by decide⟩

end Dispatcher
